import Mathlib

/-!
Verification of the pty session-server core against its specification.

Bytes are modelled as `Nat` (Go `byte` values are 0..255; no arithmetic here
overflows a byte except where the source itself truncates, which is modelled
with `% 256`).  Go byte slices are `List Nat`.  Each definition mirrors one
function of the source; stateful code is modelled by explicit state passing.
-/

namespace Pty

/-! ## Message kinds (shell.go, `messageKind` iota block) -/

def dataMessage : Nat := 0
def ttysizeMessage : Nat := 1
def ttynameMessage : Nat := 2
def serverMessage : Nat := 3
def startMessage : Nat := 4
def waitMessage : Nat := 5
def listMessage : Nat := 6
def countMessage : Nat := 7
def askCountMessage : Nat := 8
def exclusiveMessage : Nat := 9
def saveMessage : Nat := 10
def escapeMessage : Nat := 11
def preemptMessage : Nat := 12
def primaryMessage : Nat := 13
def forwardMessage : Nat := 14
def psMessage : Nat := 15
def pingMessage : Nat := 16
def ackMessage : Nat := 17
def dumpMessage : Nat := 18

/-! ## Escape-sequence byte strings (shell.go, const block)

`scasb = "\x1b[?1049h"`, `nsbrc = "\x1b[?1049l"`, `cls = nsbrc + "\x1b[J\x1b[3J\x1b[J"`,
`edall = "\x1b[2J"`, `edsaved = "\x1b[3J"`, `home = "\x1b[H"`, `sendSSH = "\x1b[z"`. -/

def scasb : List Nat := [27, 91, 63, 49, 48, 52, 57, 104]
def nsbrc : List Nat := [27, 91, 63, 49, 48, 52, 57, 108]
def edall : List Nat := [27, 91, 50, 74]
def edsaved : List Nat := [27, 91, 51, 74]
def homeSeq : List Nat := [27, 91, 72]
def sendSSH : List Nat := [27, 91, 122]
def cls : List Nat := nsbrc ++ [27, 91, 74] ++ edsaved ++ [27, 91, 74]

/-! ## Session names (session.go, `ValidSessionName`)

Go iterates the name rune by rune (`for _, c := range name`) and checks
`strings.Contains(validBytes, string(c))`; since every byte of `validBytes`
is ASCII, a single rune is contained in it iff it is one of its characters.
Names are modelled as `String` (Lean `Char` = Go rune). -/

def validBytes : List Char :=
  "0123456789abcdefghijklmnopqrstuvwxyzABCDEFGHIJKLMNOPQRSTUVWXYZ_-.+!=:[]<>\x7b\x7d".toList

def ValidSessionName (name : String) : Bool :=
  if name = "log" then false
  else name.toList.all fun c => validBytes.contains c

/-! ## Client mailbox (screen.go, `Client.Send`)

The outbound mailbox is the `buffers` slice of `Client`; `Send` is modelled on
the mailbox only (the capacity-1 `ready` notification channel carries no data).
`Send` returns `true` unconditionally. -/

def clientSend (kind : Nat) (buf : List Nat) (buffers : List (Nat × List Nat)) :
    Bool × List (Nat × List Nat) :=
  if kind = 0 ∧ buf = [] then (true, buffers)
  else (true, buffers ++ [(kind, buf)])

/-- screen.go `Client.Output`: `Send(dataMessage, buf)`. -/
def clientOutput (buf : List Nat) (buffers : List (Nat × List Nat)) :
    Bool × List (Nat × List Nat) :=
  clientSend dataMessage buf buffers

/-! ## Escape buffer state (escape.go, `EscapeBuffer`)

`saved`/`savedCap` model the `partial` slice and its capacity; `cap` is the
capacity the two screen buffers were created with (`NewEscapeBuffer`). -/

structure EscapeBuffer where
  normal : List Nat
  alt : List Nat
  saved : List Nat
  savedCap : Nat
  inalt : Bool
  cap : Nat
  deriving Repr, DecidableEq

/-- escape.go `NewEscapeBuffer`: a non-positive requested size means 1 MiB. -/
def NewEscapeBuffer (n : Int) : EscapeBuffer :=
  { normal := [], alt := [], saved := [], savedCap := 0, inalt := false,
    cap := if n ≤ 0 then 1024 * 1024 else n.toNat }

/-! ## escape.go: appendto and EscapeBuffer.Write

`appendto(old, new)` appends into a fixed-capacity buffer, dropping from the
head when full.  Go slice capacities are tracked by the explicit `oc`
argument (`EscapeBuffer.cap` for both screen buffers).  When
`oc - extraBase < len(new) < oc ≤ len(new) + len(old)` (with
`extraBase = min 1024 (max (oc/8) 1)`) the source evaluates `old[extra:]`
with `extra > len(old)`, a slice-bounds panic; that case is `none`. -/

def appendtoCap (oc : Nat) (old new : List Nat) : Option (List Nat) :=
  let nl := new.length
  let ol := old.length
  if nl = 0 then some old
  else if nl ≥ oc then some (new.drop (nl - oc))
  else if nl + ol < oc then some (old ++ new)
  else
    let extra0 : Nat := 1024
    let extra1 := if extra0 > oc / 8 then (if oc / 8 = 0 then 1 else oc / 8) else extra0
    let extra := nl + ol - oc + extra1
    if extra > ol then none
    else some (old.drop extra ++ new)

/-- The callbacks `NewShell` registers (shell.go lines 181-208), as data. -/
inductive SeqEffect where
  | ssh
  | altOn
  | altOff
  | clearSaved
  | clearAll
  | mark
  deriving Repr, DecidableEq

/-- Interpretation of the registered callbacks: each mutates the buffer state
and returns false (never append the sequence itself). -/
def runSeqCallback : SeqEffect → EscapeBuffer → EscapeBuffer × Bool
  | .ssh, e => (e, false)
  | .altOn, e => ({ e with inalt := true }, false)
  | .altOff, e => ({ e with inalt := false }, false)
  | .clearSaved, e =>
      (if !e.inalt then { e with normal := nsbrc ++ edall } else e, false)
  | .clearAll, e =>
      (if e.inalt then { e with alt := homeSeq ++ edall } else e, false)
  | .mark, e => (e, true)

structure SeqEntry where
  seq : List Nat
  eff : SeqEffect
  deriving Repr, DecidableEq

/-- The sequence table `NewShell` builds with `AddSequence`, in registration
order.  No terminator (`AddReportSequence`) sequence is ever registered in
the program, so `EscapeBuffer.inseq` is always nil and the branch of `Write`
handling it is dead code; it is omitted from the model. -/
def shellSeqTable : List SeqEntry :=
  [⟨sendSSH, .ssh⟩, ⟨scasb, .altOn⟩, ⟨nsbrc, .altOff⟩,
    ⟨edsaved, .clearSaved⟩, ⟨edall, .clearAll⟩]

/-- escape.go `AddSequence`: `firstBytes` collects the distinct first bytes of
the registered sequences in registration order. -/
def firstBytesOf (tbl : List SeqEntry) : List Nat :=
  tbl.foldl
    (fun acc s =>
      match s.seq with
      | [] => acc
      | b :: _ => if acc.contains b then acc else acc ++ [b])
    []

/-- The append the `add` closure of `Write` performs: into `alt` when `dir`
is set, into `normal` otherwise (`dir` is `e.inalt` captured when `Write`
starts, not the current value). -/
def ebAdd (dir : Bool) (chunk : List Nat) (e : EscapeBuffer) : Option EscapeBuffer :=
  if dir then (appendtoCap e.cap e.alt chunk).map fun a => { e with alt := a }
  else (appendtoCap e.cap e.normal chunk).map fun n => { e with normal := n }

/-- escape.go `Write`, scan over `e.sequences`: the first full match wins
(`continue Loop`); otherwise the length of the longest registered sequence of
which `buf` is a strict prefix is accumulated as `maxPartial`. -/
def seqScan (buf : List Nat) : List SeqEntry → Nat → SeqEntry ⊕ Nat
  | [], mp => .inr mp
  | s :: rest, mp =>
      if buf.length ≥ s.seq.length then
        if buf.take s.seq.length = s.seq then .inl s
        else seqScan buf rest mp
      else
        if s.seq.take buf.length = buf then
          seqScan buf rest (max mp s.seq.length)
        else seqScan buf rest mp

/-- escape.go `Write`, the `Loop` label: consume `buf`, adding ordinary bytes
through the captured `add` closure and dispatching registered sequences.
`fuel` only bounds the number of iterations; every iteration consumes at
least one byte, so the callers' `buf.length + 1` never runs out. -/
def writeLoop (tbl : List SeqEntry) (fb : List Nat) (dir : Bool) :
    Nat → EscapeBuffer → List Nat → Option EscapeBuffer
  | 0, _, _ => none
  | fuel + 1, e, buf =>
      let x := buf.findIdx fun b => fb.contains b
      if x < buf.length then
        (ebAdd dir (buf.take x) e).bind fun e1 =>
          let buf1 := buf.drop x
          match seqScan buf1 tbl 0 with
          | .inl s =>
              let r := runSeqCallback s.eff e1
              (if r.2 then ebAdd dir s.seq r.1 else some r.1).bind fun e3 =>
                writeLoop tbl fb dir fuel e3 (buf1.drop s.seq.length)
          | .inr mp =>
              if 0 < mp then some { e1 with saved := buf1, savedCap := mp }
              else
                (ebAdd dir (buf1.take 1) e1).bind fun e2 =>
                  writeLoop tbl fb dir fuel e2 (buf1.drop 1)
      else ebAdd dir buf e

/-- escape.go `Write`, the partial-refill loop: while bytes remain and a
partial sequence is saved, fill the partial region from `buf` and recursively
write the combined bytes (the recursive `Write` captures the *current*
`inalt` for its `add` and, with `partial` now nil, runs the main loop
directly).  A full partial region (`i = 0`) would loop forever in the source;
that cannot happen because a partial is always a strict prefix, and is mapped
to `none`. -/
def ebRefill (tbl : List SeqEntry) (fb : List Nat) :
    Nat → EscapeBuffer → List Nat → Option (EscapeBuffer × List Nat)
  | 0, _, _ => none
  | fuel + 1, e, buf =>
      if buf ≠ [] ∧ e.saved ≠ [] then
        let pl := e.saved.length
        let i := min (e.savedCap - pl) buf.length
        if i = 0 then none
        else
          let ep := e.saved ++ buf.take i
          let e1 := { e with saved := [], savedCap := 0 }
          (writeLoop tbl fb e1.inalt (ep.length + 1) e1 ep).bind fun e2 =>
            ebRefill tbl fb fuel e2 (buf.drop i)
      else some (e, buf)

/-- escape.go `EscapeBuffer.Write` (for a table with no terminator
sequences): capture the `add` direction from the current `inalt`, handle the
no-sequences fast path, run the partial-refill loop, return early when a
partial remains, then run the main loop on the remaining bytes with the
captured direction. -/
def ebWrite (tbl : List SeqEntry) (e : EscapeBuffer) (buf : List Nat) :
    Option EscapeBuffer :=
  let dir := e.inalt
  let fb := firstBytesOf tbl
  if fb.isEmpty then ebAdd dir buf e
  else
    (ebRefill tbl fb (buf.length + 1) e buf).bind fun er =>
      if er.1.saved ≠ [] then some er.1
      else writeLoop tbl fb dir (er.2.length + 1) er.1 er.2

/-- A sequence of `Write` calls, propagating the panic case. -/
def ebWriteSeq (tbl : List SeqEntry) (e : EscapeBuffer) :
    List (List Nat) → Option EscapeBuffer
  | [] => some e
  | buf :: rest => (ebWrite tbl e buf).bind fun e1 => ebWriteSeq tbl e1 rest

/-! ## messenger.go: MessengerWriter

The underlying writer is modelled as pure accumulation of the emitted bytes
(no write errors). -/

/-- messenger.go `var oneK = 1024`. -/
def oneK : Nat := 1024

/-- messenger.go `MessengerWriter.Write`, the loop after the first NUL: the
pending bytes are `0 :: rest` whose leading NUL was already emitted once at
the end of the previous chunk; each chunk re-emits it, doubling every NUL.
`fuel` bounds iterations; the callers' `rest.length + 1` never runs out since
every iteration consumes at least one byte of `rest`. -/
def mwTail : Nat → List Nat → List Nat
  | 0, rest => 0 :: rest
  | fuel + 1, rest =>
      match rest.findIdx? fun b => b == 0 with
      | none => 0 :: rest
      | some y => (0 :: rest.take (y + 1)) ++ mwTail fuel (rest.drop (y + 1))

/-- messenger.go `MessengerWriter.Write`: emit up to and including the first
NUL, then the doubling loop. -/
def mwWrite (buf : List Nat) : List Nat :=
  match buf.findIdx? fun b => b == 0 with
  | none => buf
  | some x => buf.take (x + 1) ++ mwTail buf.length (buf.drop (x + 1))

/-- The four big-endian length bytes `byte(count >> 24) .. byte(count)` of a
message header. -/
def enc4 (count : Nat) : List Nat :=
  [(count >>> 24) % 256, (count >>> 16) % 256, (count >>> 8) % 256, count % 256]

/-- messenger.go `MessengerWriter.Send`: kind 0 delegates to `Write`;
otherwise a 6-byte header `0, byte(kind), len4` is coalesced with up to
`oneK - 6` payload bytes into one underlying write, the rest written
separately (the emitted byte stream is their concatenation). -/
def mwSend (kind : Nat) (buf : List Nat) : List Nat :=
  if kind = 0 then mwWrite buf
  else
    let count := buf.length
    let header := 0 :: kind % 256 :: enc4 count
    let n := min (oneK - 6) count
    (header ++ buf.take n) ++ (if count > n then buf.drop n else [])

/-! ## messenger.go: MessengerReader

State of a `MessengerReader` over a deterministic underlying reader that
delivers `min(space, remaining)` bytes per call (the behaviour of
`bytes.Buffer` and of a socket with the peer's bytes already queued).
`msgCap` is `cap(m.message)` (equal to `msg.length` throughout); `err` is
`m.error != nil` — the model's only error is `io.EOF`. -/

structure MState where
  mh : Nat
  mt : Nat
  msg : List Nat
  msgCap : Nat
  err : Bool
  rem : List Nat
  deriving Repr, DecidableEq

/-- Go `copy(dst[pos:], src)` on a backing array of length `dstLen`:
overwrites `k = min (len src) (dstLen - pos)` bytes at `pos`. -/
def blit (dst : List Nat) (pos : Nat) (src : List Nat) (dstLen : Nat) : List Nat :=
  let k := min src.length (dstLen - pos)
  dst.take pos ++ src.take k ++ dst.drop (pos + k)

/-- One `m.r.Read(m.message[m.mt:])`: deliver `min(space, remaining)` bytes;
a zero-byte read with no underlying error sets `m.error = io.EOF`. -/
def mrRead0 (s : MState) : MState :=
  let space := s.msgCap - s.mt
  let n := min space s.rem.length
  if n = 0 then { s with err := true }
  else
    { s with msg := blit s.msg s.mt (s.rem.take n) s.msgCap,
             mt := s.mt + n, rem := s.rem.drop n }

/-- messenger.go `fill`, the buggy reallocation size: the comment says
"rounding up to a 4K buffer size" but `(count+0x1000)&0xfff` keeps only the
low 12 bits. -/
def fillGrowSize (count : Nat) : Nat := (count + 0x1000) &&& 0xfff

/-- messenger.go `fill`, the read loop: reallocate (`count > cap`) or compact
(`m.mh+count > cap`), then read.  `fuel` bounds iterations; each one either
consumes remaining input or sets `err`, so `rem.length + 2` suffices. -/
def fillLoop (count : Nat) : Nat → MState → MState
  | 0, s => s
  | fuel + 1, s =>
      if s.err = false ∧ s.mt - s.mh < count then
        let s1 :=
          if count > s.msgCap then
            let g := fillGrowSize count
            { s with msg := blit (List.replicate g 0) 0 (s.msg.take (s.mt - s.mh)) g,
                     msgCap := g, mt := min (s.mt - s.mh) g, mh := 0 }
          else if s.mh + count > s.msgCap then
            { s with msg := blit s.msg 0 ((s.msg.drop s.mh).take (s.mt - s.mh)) s.msgCap,
                     mt := s.mt - s.mh, mh := 0 }
          else s
        fillLoop count fuel (mrRead0 s1)
      else s

/-- messenger.go `fill`: make `count` bytes available from `m.mh`. -/
def fill (count : Nat) (s : MState) : Bool × MState :=
  if count = 0 then (true, s)
  else if s.mh ≥ s.mt then
    let s0 := { s with mh := 0, mt := 0 }
    if s0.err then (false, s0)
    else
      let s2 := fillLoop count (s0.rem.length + 2) s0
      (decide (s2.mt - s2.mh ≥ count), s2)
  else
    let s2 := fillLoop count (s.rem.length + 2) s
    (decide (s2.mt - s2.mh ≥ count), s2)

mutual

/-- messenger.go `MessengerReader.Read`, the main loop.  Returns the opaque
bytes copied into the destination (whose free space is `space`), the
`(kind, payload)` callback invocations in order, whether the return carried
`m.error`, and the final state.  `cnt` is the count of bytes already copied
in this `Read` call.  `fuel` bounds iterations; each continuing iteration
consumes at least two pending bytes. -/
def readLoop : Nat → Nat → Nat → MState → List Nat × List (Nat × List Nat) × Bool × MState
  | 0, _, _, s => ([], [], true, s)
  | fuel + 1, space, cnt, s =>
      if space = 0 then ([], [], false, s)
      else
        match fill 1 s with
        | (false, s1) => ([], [], true, s1)
        | (true, s1) =>
            if s1.msg.getD s1.mh 0 ≠ 0 then
              -- normal data, not the start of a message
              let mtCl := if s1.mt - s1.mh > space then s1.mh + space else s1.mt
              match ((s1.msg.drop s1.mh).take (mtCl - s1.mh)).findIdx? fun b => b == 0 with
              | none =>
                  let n := min space (s1.mt - s1.mh)
                  ((s1.msg.drop s1.mh).take n, [], false, { s1 with mh := s1.mh + n })
              | some x =>
                  let chunk := (s1.msg.drop s1.mh).take x
                  let r := readNul fuel (space - x) (cnt + x) { s1 with mh := s1.mh + x }
                  (chunk ++ r.1, r.2.1, r.2.2.1, r.2.2.2)
            else
              readNul fuel space cnt s1

/-- messenger.go `MessengerReader.Read`, from the point where
`m.message[m.mh]` is a NUL: unstuff a double NUL, defer a message start when
data was already copied, otherwise read the header and payload and dispatch
the callback. -/
def readNul : Nat → Nat → Nat → MState → List Nat × List (Nat × List Nat) × Bool × MState
  | 0, _, _, s => ([], [], true, s)
  | fuel + 1, space, cnt, s =>
      match fill 2 s with
      | (false, s2) => ([], [], true, s2)
      | (true, s2) =>
          if s2.msg.getD (s2.mh + 1) 0 = 0 then
            let r := readLoop fuel (space - 1) (cnt + 1) { s2 with mh := s2.mh + 2 }
            (0 :: r.1, r.2.1, r.2.2.1, r.2.2.2)
          else if 0 < cnt then ([], [], false, s2)
          else
            match fill 6 s2 with
            | (false, s6) => ([], [], true, s6)
            | (true, s6) =>
                let kind := s6.msg.getD (s6.mh + 1) 0
                let count := ((s6.msg.getD (s6.mh + 2) 0) <<< 24) |||
                  ((s6.msg.getD (s6.mh + 3) 0) <<< 16) |||
                  ((s6.msg.getD (s6.mh + 4) 0) <<< 8) |||
                  (s6.msg.getD (s6.mh + 5) 0)
                let s7 := { s6 with mh := s6.mh + 6 }
                match fill count s7 with
                | (false, s8) => ([], [], true, s8)
                | (true, s8) =>
                    let payload := (s8.msg.drop s8.mh).take count
                    let r := readLoop fuel space cnt { s8 with mh := s8.mh + count }
                    (r.1, (kind, payload) :: r.2.1, r.2.2.1, r.2.2.2)

end

/-- One `MessengerReader.Read` into a destination buffer of `space` bytes. -/
def mrRead (space : Nat) (s : MState) : List Nat × List (Nat × List Nat) × Bool × MState :=
  readLoop ((s.mt - s.mh) + s.rem.length + 1) space 0 s

/-- `NewMessengerReader` over the bytes `wire` queued on the underlying
reader: `message` is `make([]byte, 32768)`. -/
def newMessengerReader (wire : List Nat) : MState :=
  { mh := 0, mt := 0, msg := List.replicate 32768 0, msgCap := 32768,
    err := false, rem := wire }

/-- The caller's read loop (as in `ioutil.ReadAll` plus collecting the
callbacks): `Read` until it reports an error, concatenating the opaque bytes
and the callback sequence. -/
def readAll : Nat → Nat → MState → List Nat × List (Nat × List Nat)
  | 0, _, _ => ([], [])
  | fuel + 1, space, s =>
      let r := mrRead space s
      if r.2.2.1 then (r.1, r.2.1)
      else
        let r2 := readAll fuel space r.2.2.2
        (r.1 ++ r2.1, r.2.1 ++ r2.2)

/-- Feed `wire` to a fresh `MessengerReader` and read everything through
destination buffers of `space` bytes. -/
def mrReadAll (space : Nat) (wire : List Nat) : List Nat × List (Nat × List Nat) :=
  readAll (wire.length + 1) space (newMessengerReader wire)

/-! ## Codec interleavings (the objects of the round-trip claim) -/

/-- An interleaving item: opaque bytes passed to `Write`, or a framed
message passed to `Send`. -/
inductive WireItem where
  | data (bytes : List Nat)
  | msg (kind : Nat) (payload : List Nat)
  deriving Repr, DecidableEq

def encodeItem : WireItem → List Nat
  | .data b => mwWrite b
  | .msg k p => mwSend k p

def encodeItems (its : List WireItem) : List Nat :=
  (its.map encodeItem).flatten

def itemsData : List WireItem → List Nat
  | [] => []
  | .data b :: rest => b ++ itemsData rest
  | .msg _ _ :: rest => itemsData rest

def itemsMsgs : List WireItem → List (Nat × List Nat)
  | [] => []
  | .data _ :: rest => itemsMsgs rest
  | .msg k p :: rest => (k, p) :: itemsMsgs rest

/-- The round-trip hypotheses: message kinds fit in a nonzero byte and
payloads fit the reader's 32768-byte buffer (larger ones are lost to the
`fill` reallocation bug, claim C4). -/
def OkItem : WireItem → Prop
  | .data _ => True
  | .msg k p => 1 ≤ k ∧ k ≤ 255 ∧ p.length ≤ 32768

/-- NUL-stuffing, the specification of `MessengerWriter.Write`'s output. -/
def nulStuff (buf : List Nat) : List Nat :=
  (buf.map fun b => if b = 0 then [0, 0] else [b]).flatten

/-- Wire tokens: the unit in which the reader consumes a legal wire.  A
legal wire is a concatenation of nonzero literal bytes, stuffed NULs, and
frames. -/
inductive Tok where
  | lit (b : Nat)
  | nul
  | fr (kind : Nat) (payload : List Nat)
  deriving Repr, DecidableEq

def tokBytes : Tok → List Nat
  | .lit b => [b]
  | .nul => [0, 0]
  | .fr k p => 0 :: k :: enc4 p.length ++ p

def toksBytes (ts : List Tok) : List Nat :=
  (ts.map tokBytes).flatten

def OkTok : Tok → Prop
  | .lit b => b ≠ 0
  | .nul => True
  | .fr k p => 1 ≤ k ∧ k ≤ 255 ∧ p.length ≤ 32768

def toksData : List Tok → List Nat
  | [] => []
  | .lit b :: ts => b :: toksData ts
  | .nul :: ts => 0 :: toksData ts
  | .fr _ _ :: ts => toksData ts

def toksMsgs : List Tok → List (Nat × List Nat)
  | [] => []
  | .lit _ :: ts => toksMsgs ts
  | .nul :: ts => toksMsgs ts
  | .fr k p :: ts => (k, p) :: toksMsgs ts

/-- The tokens a `Write`/`Send` item contributes to the wire. -/
def itemToks : WireItem → List Tok
  | .data b => b.map fun c => if c = 0 then Tok.nul else Tok.lit c
  | .msg k p => [.fr k p]

def itemsToks (its : List WireItem) : List Tok :=
  (its.map itemToks).flatten

/-- The number of leading literal tokens (the length of the zero-free byte
run a legal wire starts with). -/
def litRun : List Tok → Nat
  | .lit _ :: ts => litRun ts + 1
  | _ => 0

/-- The buffered-but-undelivered bytes of a reader state, followed by the
bytes still queued on the underlying reader. -/
def window (s : MState) : List Nat :=
  (s.msg.drop s.mh).take (s.mt - s.mh)

def pending (s : MState) : List Nat :=
  window s ++ s.rem

/-- Reader-state structural invariant (buffer indices in range, capacity as
allocated by `NewMessengerReader`). -/
def RInv (s : MState) : Prop :=
  s.mh ≤ s.mt ∧ s.mt ≤ s.msgCap ∧ s.msgCap = 32768 ∧ s.msg.length = s.msgCap

/-- Reader-state well-formedness, preserved while reads succeed. -/
def MWf (s : MState) : Prop :=
  RInv s ∧ s.err = false

/-! ## Shell.Attach (shell.go)

`Attach` sends a `startMessage`, then the clear sequence followed by the
normal buffer as opaque data, then — when `inalt` is set — the alt-screen
enter sequence and the alt contents.  The client is screen.go's `Client`,
whose `Send`/`Output` always report success, so the failure branches of
`Attach` are not taken.  Only the mailbox effect is modelled. -/

def shellAttachSends (eb : EscapeBuffer) (mb : List (Nat × List Nat)) :
    List (Nat × List Nat) :=
  let mb1 := (clientSend startMessage [] mb).2
  let mb2 := (clientOutput (cls ++ eb.normal) mb1).2
  if eb.inalt then
    let mb3 := (clientOutput scasb mb2).2
    (clientOutput eb.alt mb3).2
  else mb2

/-- Opaque (kind 0) payloads of a mailbox, concatenated in order. -/
def opaqueData (mb : List (Nat × List Nat)) : List Nat :=
  (mb.filter fun it => it.1 = 0).map (fun it => it.2) |>.flatten

/-! ## Session.Listen (session.go)

`Listen` binds a loopback TCP listener (bind failure calls `Exitf`, which
terminates the process), then writes the `addr` file and the `pid` file; a
failed write removes the whole session directory, closes the listener and
returns that error.  The filesystem and network are injected as an
environment of outcomes. -/

structure ListenEnv where
  bindResult : Option String
  addrWriteErr : Option String
  pidWriteErr : Option String
  pid : Nat
  deriving Repr, DecidableEq

structure SessionDisk where
  dirExists : Bool
  addrFile : Option String
  pidFile : Option Nat
  deriving Repr, DecidableEq

/-- session.go `Session.Remove`: `os.RemoveAll` of the session directory. -/
def sessionRemove (_d : SessionDisk) : SessionDisk :=
  { dirExists := false, addrFile := none, pidFile := none }

inductive ListenResult where
  | exited
  | failed (err : String)
  | ok (addr : String)
  deriving Repr, DecidableEq

structure ListenOut where
  result : ListenResult
  disk : SessionDisk
  listenerOpen : Bool
  deriving Repr, DecidableEq

def sessionListen (env : ListenEnv) (d : SessionDisk) : ListenOut :=
  match env.bindResult with
  | none => { result := .exited, disk := d, listenerOpen := false }
  | some addr =>
      match env.addrWriteErr with
      | some e =>
          { result := .failed e, disk := sessionRemove d, listenerOpen := false }
      | none =>
          let d1 := { d with addrFile := some addr }
          match env.pidWriteErr with
          | some e =>
              { result := .failed e, disk := sessionRemove d1, listenerOpen := false }
          | none =>
              { result := .ok addr,
                disk := { d1 with pidFile := some env.pid },
                listenerOpen := true }

/-! ## Shell client arbitration (shell.go, server)

State machine over client identifiers.  `attached` is the shell's `clients`
set, `primarySet` the set of `Client`s whose `primary` flag is true (also
clients no longer attached keep their flag), `pids` the shell's `pids` map
(Go map pid → client, modelled as an association list with unique keys in
insertion order).  The reachable operations are exactly those the server
performs: attach a freshly created client, detach, `Take`, `AddPid` (from a
`ttyname` message), and `Count` (from an `askCount` message), the last with
an arbitrary process-aliveness oracle. -/

structure ShellState where
  nextId : Nat
  attached : Finset Nat
  primarySet : Finset Nat
  pids : List (Nat × Nat)
  deriving DecidableEq

def shellInit : ShellState :=
  { nextId := 0, attached := ∅, primarySet := ∅, pids := [] }

/-- shell.go `Attach` (state part): a freshly constructed client (whose
`primary` flag is zero-valued false) is added to `clients`. -/
def shellAttach (s : ShellState) : ShellState :=
  { s with attached := insert s.nextId s.attached, nextId := s.nextId + 1 }

/-- shell.go `detach`: remove from the `clients` set. -/
def shellDetach (c : Nat) (s : ShellState) : ShellState :=
  { s with attached := s.attached.erase c }

/-- shell.go `Take`: if the caller is already primary, return; otherwise clear
the `primary` flag of every *attached* other client (sending `preemptMessage`)
and set the caller's flag (sending `primaryMessage`).  The `requestSize`
argument is unused by the body, as in the source. -/
def shellTake (c : Nat) (_requestSize : Bool) (s : ShellState) : ShellState :=
  if c ∈ s.primarySet then s
  else { s with primarySet := insert c (s.primarySet \ s.attached) }

/-- shell.go `AddPid`: `s.pids[pid] = client` (map assignment: replace the
value of an existing key, otherwise append). -/
def shellAddPid (c pid : Nat) (s : ShellState) : ShellState :=
  { s with
    pids :=
      if s.pids.any fun e => e.1 = pid then
        s.pids.map fun e => if e.1 = pid then (pid, c) else e
      else s.pids ++ [(pid, c)] }

/-- shell.go `Count`, loop body: each entry whose pid the kill-0 probe reports
dead is deleted from the pid map and its client detached. -/
def sweepDead (alive : Nat → Bool) : List (Nat × Nat) → ShellState → ShellState
  | [], s => s
  | e :: rest, s =>
      if alive e.1 then sweepDead alive rest s
      else
        sweepDead alive rest
          { s with pids := s.pids.filter fun f => f.1 ≠ e.1,
                   attached := s.attached.erase e.2 }

/-- shell.go `Count`: sweep dead pids, then return the size of the pid map. -/
def shellCount (alive : Nat → Bool) (s : ShellState) : Nat × ShellState :=
  let s2 := sweepDead alive s.pids s
  (s2.pids.length, s2)

/-- Decimal ASCII bytes of a number, as produced by `fmt.Sprintf("%d", n)`. -/
def decimalBytes (n : Nat) : List Nat :=
  (Nat.repr n).toList.map Char.toNat

/-- server (attach handler), `askCountMessage` case:
`mw.Sendf(countMessage, "%d", s.Count())`. -/
def askCountHandler (alive : Nat → Bool) (s : ShellState) :
    (Nat × List Nat) × ShellState :=
  let r := shellCount alive s
  ((countMessage, decimalBytes r.1), r.2)

/-- States reachable through the operations the server performs on a shell. -/
inductive ShellReach : ShellState → Prop
  | init : ShellReach shellInit
  | attach {s} : ShellReach s → ShellReach (shellAttach s)
  | detach {s} (c : Nat) : ShellReach s → ShellReach (shellDetach c s)
  | take {s} (c : Nat) (rq : Bool) : ShellReach s → c < s.nextId →
      ShellReach (shellTake c rq s)
  | addPid {s} (c pid : Nat) : ShellReach s → c < s.nextId →
      ShellReach (shellAddPid c pid s)
  | count {s} (alive : Nat → Bool) : ShellReach s →
      ShellReach (shellCount alive s).2

/-- The pid most recently recorded for client `c` (`ttyname` handling maps
pid → client, so a client's last-known pid is the last entry holding it). -/
def lastKnownPid (s : ShellState) (c : Nat) : Option Nat :=
  ((s.pids.filter fun e => e.2 = c).map Prod.fst).getLast?

/-- The number of currently attached clients whose last-known pid is alive —
the quantity the C5 claim says `askCount` replies with. -/
def liveAttachedCount (s : ShellState) (alive : Nat → Bool) : Nat :=
  (s.attached.filter fun c => ((lastKnownPid s c).map alive).getD false = true).card

/-- Trace: a client attaches, registers pid 42, then detaches (its connection
closes) while process 42 is still alive. -/
def c5Trace : ShellState :=
  shellDetach 0 (shellAddPid 0 42 (shellAttach shellInit))

/-- Trace: a client attaches and registers pid 42. -/
def c5Reg : ShellState :=
  shellAddPid 0 42 (shellAttach shellInit)

/-- Invariants carried through the reachability induction. -/
def ShellInv (s : ShellState) : Prop :=
  (∀ i ∈ s.primarySet, i < s.nextId) ∧
  (∀ i ∈ s.attached, i < s.nextId) ∧
  (∀ a ∈ s.attached ∩ s.primarySet, ∀ b ∈ s.attached ∩ s.primarySet, a = b) ∧
  (s.pids.map Prod.fst).Nodup

/-! # Theorems -/

/-! ### Shell state-machine lemmas -/

theorem sweepDead_state (alive : Nat → Bool) (l : List (Nat × Nat)) :
    ∀ s : ShellState,
      (sweepDead alive l s).nextId = s.nextId ∧
      (sweepDead alive l s).primarySet = s.primarySet ∧
      (sweepDead alive l s).attached ⊆ s.attached ∧
      (sweepDead alive l s).pids
        = s.pids.filter fun f =>
            f.1 ∉ (l.filter fun e => !alive e.1).map Prod.fst := by
  induction l with
  | nil =>
      intro s
      simp [sweepDead]
  | cons e rest ih =>
      intro s
      by_cases h : alive e.1
      · have hstep : sweepDead alive (e :: rest) s = sweepDead alive rest s := by
          simp [sweepDead, h]
        have hkeys : (List.filter (fun x => !alive x.1) (e :: rest))
            = List.filter (fun x => !alive x.1) rest := by
          apply List.filter_cons_of_neg
          simp [h]
        rw [hstep]
        simp only [hkeys]
        exact ih s
      · have hb : alive e.1 = false := by simpa using h
        have hstep : sweepDead alive (e :: rest) s = sweepDead alive rest
            { s with pids := s.pids.filter fun f => f.1 ≠ e.1,
                     attached := s.attached.erase e.2 } := by
          simp [sweepDead, hb]
        have hkeys : (List.filter (fun x => !alive x.1) (e :: rest))
            = e :: List.filter (fun x => !alive x.1) rest := by
          apply List.filter_cons_of_pos
          simp [hb]
        rw [hstep]
        simp only [hkeys]
        obtain ⟨h1, h2, h3, h4⟩ :=
          ih { s with pids := s.pids.filter fun f => f.1 ≠ e.1,
                      attached := s.attached.erase e.2 }
        refine ⟨h1, h2, ?_, ?_⟩
        · exact subset_trans h3 (Finset.erase_subset e.2 s.attached)
        · rw [h4]
          simp only [List.filter_filter]
          apply List.filter_congr
          intro f _
          simp only [List.map_cons, List.mem_cons, not_or]
          by_cases h1 : f.1 = e.1 <;>
            by_cases h2 : f.1 ∈ (List.filter (fun x => !alive x.1) rest).map Prod.fst <;>
              simp [h1, h2]

theorem sweepDead_pids_self (alive : Nat → Bool) (s : ShellState)
    (hnd : (s.pids.map Prod.fst).Nodup) :
    (sweepDead alive s.pids s).pids = s.pids.filter fun e => alive e.1 := by
  rw [(sweepDead_state alive s.pids s).2.2.2]
  apply List.filter_congr
  intro f hf
  have hinj := List.inj_on_of_nodup_map hnd
  cases halive : alive f.1
  · rw [decide_eq_false_iff_not]
    intro hnotin
    exact hnotin (List.mem_map.mpr ⟨f, List.mem_filter.mpr ⟨hf, by simp [halive]⟩, rfl⟩)
  · rw [decide_eq_true_eq]
    simp only [List.mem_map, List.mem_filter]
    rintro ⟨e, ⟨he, hdead⟩, hkey⟩
    have : e = f := hinj he hf hkey
    subst this
    simp [halive] at hdead

theorem shellReach_inv {s : ShellState} (h : ShellReach s) : ShellInv s := by
  induction h with
  | init =>
      refine ⟨?_, ?_, ?_, ?_⟩ <;> simp [shellInit, ShellInv]
  | @attach s h ih =>
      obtain ⟨p1, p2, p3, p4⟩ := ih
      refine ⟨?_, ?_, ?_, ?_⟩
      · intro i hi
        exact Nat.lt_succ_of_lt (p1 i hi)
      · intro i hi
        rw [shellAttach] at hi
        rcases Finset.mem_insert.mp hi with rfl | hi
        · exact Nat.lt_succ_self _
        · exact Nat.lt_succ_of_lt (p2 i hi)
      · intro a ha b hb
        rw [shellAttach, Finset.mem_inter, Finset.mem_insert] at ha hb
        rcases ha with ⟨rfl | ha1, ha2⟩
        · exact absurd (p1 _ ha2) (Nat.lt_irrefl _)
        · rcases hb with ⟨rfl | hb1, hb2⟩
          · exact absurd (p1 _ hb2) (Nat.lt_irrefl _)
          · exact p3 a (Finset.mem_inter.mpr ⟨ha1, ha2⟩) b
              (Finset.mem_inter.mpr ⟨hb1, hb2⟩)
      · exact p4
  | @detach s c h ih =>
      obtain ⟨p1, p2, p3, p4⟩ := ih
      refine ⟨p1, ?_, ?_, p4⟩
      · intro i hi
        rw [shellDetach] at hi
        exact p2 i (Finset.mem_of_mem_erase hi)
      · intro a ha b hb
        rw [shellDetach, Finset.mem_inter] at ha hb
        exact p3 a (Finset.mem_inter.mpr ⟨Finset.mem_of_mem_erase ha.1, ha.2⟩) b
          (Finset.mem_inter.mpr ⟨Finset.mem_of_mem_erase hb.1, hb.2⟩)
  | @take s c rq h hc ih =>
      obtain ⟨p1, p2, p3, p4⟩ := ih
      unfold shellTake
      by_cases hp : c ∈ s.primarySet
      · simpa [hp] using ⟨p1, p2, p3, p4⟩
      · simp only [hp, if_false]
        refine ⟨?_, p2, ?_, p4⟩
        · intro i hi
          rcases Finset.mem_insert.mp hi with rfl | hi
          · exact hc
          · exact p1 i (Finset.mem_sdiff.mp hi).1
        · intro a ha b hb
          rw [Finset.mem_inter, Finset.mem_insert] at ha hb
          obtain ⟨ha1, ha2⟩ := ha
          obtain ⟨hb1, hb2⟩ := hb
          rcases ha2 with rfl | ha2
          · rcases hb2 with rfl | hb2
            · rfl
            · exact absurd hb1 (Finset.mem_sdiff.mp hb2).2
          · exact absurd ha1 (Finset.mem_sdiff.mp ha2).2
  | @addPid s c pid h hc ih =>
      obtain ⟨p1, p2, p3, p4⟩ := ih
      refine ⟨p1, p2, p3, ?_⟩
      unfold shellAddPid
      split
      · rw [List.map_map]
        rw [List.map_congr_left (g := Prod.fst)]
        · exact p4
        · intro e _
          by_cases he : e.1 = pid <;> simp [he]
      · next hany =>
        rw [List.map_append]
        rw [List.nodup_append]
        refine ⟨p4, List.nodup_singleton _, ?_⟩
        intro k hk
        simp only [List.map_cons, List.map_nil, List.mem_singleton]
        intro hkpid
        subst hkpid
        apply hany
        rw [List.any_eq_true]
        rcases List.mem_map.mp hk with ⟨e, he, rfl⟩
        exact ⟨e, he, by simp⟩
  | @count s alive h ih =>
      obtain ⟨p1, p2, p3, p4⟩ := ih
      obtain ⟨q1, q2, q3, q4⟩ := sweepDead_state alive s.pids s
      refine ⟨?_, ?_, ?_, ?_⟩
      · intro i hi
        rw [shellCount] at hi ⊢
        rw [q2] at hi
        rw [q1]
        exact p1 i hi
      · intro i hi
        rw [shellCount] at hi ⊢
        rw [q1]
        exact p2 i (q3 hi)
      · intro a ha b hb
        rw [shellCount, Finset.mem_inter, q2] at ha hb
        exact p3 a (Finset.mem_inter.mpr ⟨q3 ha.1, ha.2⟩) b
          (Finset.mem_inter.mpr ⟨q3 hb.1, hb.2⟩)
      · rw [shellCount, q4]
        exact ((List.filter_sublist s.pids).map Prod.fst).nodup p4

/-- C9 counterexample: the claim states `ValidSessionName` accepts exactly the
non-empty names over the valid character set other than `"log"`; the code
accepts the empty name (its character loop is vacuous), so the claim fails at
`name = ""`. -/
theorem validSessionName_claim_false_at_empty :
    ¬ (ValidSessionName "" = true ↔
        ("" : String) ≠ "" ∧ ("" : String) ≠ "log" ∧
          ∀ c ∈ ("" : String).toList, c ∈ validBytes) := by
  decide

/-- C9 (amended): `ValidSessionName name` is true iff `name ≠ "log"` and every
character of `name` belongs to the valid set `0-9 A-Z a-z _ - . + ! = : [ ] < > \x7b \x7d`
(in particular the empty name is accepted). -/
theorem validSessionName_iff (name : String) :
    ValidSessionName name = true ↔
      name ≠ "log" ∧ ∀ c ∈ name.toList, c ∈ validBytes := by
  unfold ValidSessionName
  by_cases h : name = "log"
  · simp [h]
  · simp only [h, if_false, ne_eq, not_false_eq_true, true_and]
    rw [List.all_eq_true]
    constructor
    · intro hall c hc
      have := hall c hc
      simpa [List.contains, List.elem_iff] using this
    · intro hall c hc
      simpa [List.contains, List.elem_iff] using hall c hc

/-- C9 witness: the theorem applied at the session name `"a+b"`. -/
theorem validSessionName_iff_witness :
    ValidSessionName "a+b" = true :=
  (validSessionName_iff "a+b").2 (by decide)

/-- C10: `Client.Send` with the data kind (0) and empty payload leaves the
mailbox unchanged and returns true; every other (kind, payload) pair appends
exactly that one item and returns true. -/
theorem clientSend_spec (mb : List (Nat × List Nat)) :
    clientSend 0 [] mb = (true, mb) ∧
      ∀ kind buf, ¬(kind = 0 ∧ buf = ([] : List Nat)) →
        clientSend kind buf mb = (true, mb ++ [(kind, buf)]) := by
  constructor
  · simp [clientSend]
  · intro kind buf h
    simp [clientSend, h]

/-- C10 witness: the theorem applied at concrete mailboxes; an empty data write
is dropped while a kind-7 empty payload is enqueued. -/
theorem clientSend_spec_witness :
    clientSend 0 [] [(1, [2])] = (true, [(1, [2])]) ∧
      clientSend 7 [] [(1, [2])] = (true, [(1, [2]), (7, [])]) :=
  ⟨(clientSend_spec [(1, [2])]).1,
    (clientSend_spec [(1, [2])]).2 7 [] (by decide)⟩

/-- C3: immediately after `Shell.Attach` the newly attached client's opaque
data is exactly the clear sequence followed by the normal buffer, and — when
`inalt` is set — additionally the alt-screen enter sequence followed by the
alt buffer, in that order. -/
theorem attach_repaint (eb : EscapeBuffer) :
    opaqueData (shellAttachSends eb []) =
      cls ++ eb.normal ++ (if eb.inalt then scasb ++ eb.alt else []) := by
  by_cases h : eb.inalt
  · by_cases ha : eb.alt = []
    · simp [shellAttachSends, clientOutput, clientSend, opaqueData, h, ha,
        dataMessage, startMessage, cls, scasb, nsbrc, edsaved]
    · simp [shellAttachSends, clientOutput, clientSend, opaqueData, h, ha,
        dataMessage, startMessage, cls, scasb, nsbrc, edsaved]
  · simp [shellAttachSends, clientOutput, clientSend, opaqueData, h,
      dataMessage, startMessage, cls, nsbrc, edsaved]

/-- `add` of an empty chunk leaves the buffer unchanged (appendto's `nl = 0`
case), for either direction. -/
@[simp]
theorem ebAdd_nil (dir : Bool) (e : EscapeBuffer) : ebAdd dir [] e = some e := by
  cases dir <;> simp [ebAdd, appendtoCap]

/-- C7 (code bug): with capacity 16, one buffered byte and a 15-byte write,
`appendto` computes `extra = 2 > len(old) = 1` and evaluates `old[2:]` on a
length-1 slice — a slice-bounds panic (modelled as `none`) — instead of
dropping from the head; the panic is reachable through `Write`. -/
theorem appendto_panic_at_edge :
    appendtoCap 16 [97] (List.replicate 15 98) = none ∧
    ebWriteSeq [] (NewEscapeBuffer 16) [[97], List.replicate 15 98] = none := by
  decide

/-- C6 counterexample: with the shell's registered sequences, writing
`"A" ++ scasb ++ "B"` in one call routes `"B"` to the normal buffer (the
`add` closure captured `inalt` before the callback flipped it), while the
split `"A" ++ scasb` / `"B"` routes `"B"` to the alt buffer: the final states
differ, refuting split-write determinism. -/
theorem escape_split_write_claim_false :
    ebWriteSeq shellSeqTable (NewEscapeBuffer 0) [[65] ++ scasb ++ [66]] ≠
      ebWriteSeq shellSeqTable (NewEscapeBuffer 0) [[65] ++ scasb, [66]] ∧
    (ebWriteSeq shellSeqTable (NewEscapeBuffer 0) [[65] ++ scasb ++ [66]]).map
        (fun e => (e.normal, e.alt, e.inalt)) = some ([65, 66], [], true) ∧
    (ebWriteSeq shellSeqTable (NewEscapeBuffer 0) [[65] ++ scasb, [66]]).map
        (fun e => (e.normal, e.alt, e.inalt)) = some ([65], [66], true) := by
  decide

set_option maxHeartbeats 4000000 in
/-- C6 (amended): the partial-match rule holds for the shell's registered
sequences: when a write's unmatched tail is a nonempty strict prefix of a
registered sequence, it is saved in the partial region with the screen
buffers and `inalt` unchanged, and the next write completes the match
exactly as if the sequence had arrived in one piece. -/
theorem escape_partial_prefix_rule :
    ∀ s ∈ shellSeqTable, ∀ k, 0 < k → k < s.seq.length →
      ∀ st : EscapeBuffer, st.saved = [] → st.savedCap = 0 →
        (ebWrite shellSeqTable st (s.seq.take k)).map
            (fun e => (e.normal, e.alt, e.inalt, e.saved)) =
          some (st.normal, st.alt, st.inalt, s.seq.take k) ∧
        (ebWrite shellSeqTable st (s.seq.take k)).bind
            (fun e1 => ebWrite shellSeqTable e1 (s.seq.drop k)) =
          ebWrite shellSeqTable st s.seq := by
  intro s hs k hk1 hk2 st hsv hsc
  obtain ⟨n, a, sv, sc, ia, cp⟩ := st
  have hsv2 : sv = [] := hsv
  have hsc2 : sc = 0 := hsc
  subst hsv2
  subst hsc2
  fin_cases hs <;>
    · have hk8 : k < 8 := lt_of_lt_of_le hk2 (by decide)
      interval_cases k <;>
        first
        | exact absurd hk2 (by decide)
        | (cases ia <;> exact ⟨rfl, rfl⟩)

/-- C6 amended-theorem witness: the split `scasb = take 3 ++ drop 3` is
saved as a partial and completed on the next write. -/
theorem escape_partial_prefix_rule_witness :
    (ebWrite shellSeqTable (NewEscapeBuffer 0) (scasb.take 3)).map
        (fun e => (e.normal, e.alt, e.inalt, e.saved)) =
      some ((NewEscapeBuffer 0).normal, (NewEscapeBuffer 0).alt,
        (NewEscapeBuffer 0).inalt, scasb.take 3) ∧
    (ebWrite shellSeqTable (NewEscapeBuffer 0) (scasb.take 3)).bind
        (fun e1 => ebWrite shellSeqTable e1 (scasb.drop 3)) =
      ebWrite shellSeqTable (NewEscapeBuffer 0) scasb :=
  escape_partial_prefix_rule ⟨scasb, .altOn⟩ (by decide) 3 (by decide) (by decide)
    (NewEscapeBuffer 0) rfl rfl

/-- C2: at every reachable shell state at most one attached client has its
primary flag set, and after `Take` from an attached client `c` (which the
server invokes on every arriving keystroke byte), `c` is primary and every
other attached client is not. -/
theorem single_primary (s : ShellState) (h : ShellReach s) :
    (∀ a ∈ s.attached ∩ s.primarySet, ∀ b ∈ s.attached ∩ s.primarySet, a = b) ∧
    ∀ c ∈ s.attached, ∀ rq : Bool,
      (shellTake c rq s).attached = s.attached ∧
      c ∈ (shellTake c rq s).primarySet ∧
      ∀ d ∈ (shellTake c rq s).attached, d ≠ c →
        d ∉ (shellTake c rq s).primarySet := by
  obtain ⟨p1, p2, p3, p4⟩ := shellReach_inv h
  refine ⟨p3, ?_⟩
  intro c hc rq
  unfold shellTake
  by_cases hp : c ∈ s.primarySet
  · rw [if_pos hp]
    refine ⟨rfl, hp, ?_⟩
    intro d hd hdc hdp
    exact hdc (p3 d (Finset.mem_inter.mpr ⟨hd, hdp⟩) c (Finset.mem_inter.mpr ⟨hc, hp⟩))
  · rw [if_neg hp]
    refine ⟨rfl, Finset.mem_insert_self _ _, ?_⟩
    intro d hd hdc hdp
    rcases Finset.mem_insert.mp hdp with rfl | hdp
    · exact hdc rfl
    · exact (Finset.mem_sdiff.mp hdp).2 hd

/-- C2 witness: two clients attach, client 1 sends a keystroke and `Take`
makes it the unique attached primary. -/
theorem single_primary_witness :
    1 ∈ (shellTake 1 true (shellAttach (shellAttach shellInit))).primarySet ∧
    ∀ d ∈ (shellTake 1 true (shellAttach (shellAttach shellInit))).attached,
      d ≠ 1 → d ∉ (shellTake 1 true (shellAttach (shellAttach shellInit))).primarySet := by
  have h := single_primary (shellAttach (shellAttach shellInit))
    (ShellReach.attach (ShellReach.attach ShellReach.init))
  have h2 := h.2 1 (by decide) true
  exact ⟨h2.2.1, h2.2.2⟩

/-- C5 counterexample: after the reachable trace attach, AddPid(42), detach,
with process 42 alive, `Count` replies 1 although no attached client has a
live pid — detaching does not remove pid-table entries, so the reply is not
the number of attached clients with a live pid. -/
theorem askCount_claim_false :
    ShellReach c5Trace ∧
      (shellCount (fun p => p == 42) c5Trace).1 ≠
        liveAttachedCount c5Trace (fun p => p == 42) :=
  ⟨ShellReach.detach 0
      (ShellReach.addPid 0 42 (ShellReach.attach ShellReach.init) (by decide)),
    by decide⟩

/-- C5 (amended): the `askCount` reply is the decimal count of pid-table
entries whose pid is alive (clients that never sent a `ttyname` message have
no entry and are never counted); entries with dead pids are swept from the
table and their clients detached.  The count is over registered pids, which
may include clients that already detached. -/
theorem askCount_live_entries (s : ShellState) (alive : Nat → Bool)
    (h : ShellReach s) :
    (shellCount alive s).1 = (s.pids.filter fun e => alive e.1).length ∧
    (shellCount alive s).2.pids = s.pids.filter (fun e => alive e.1) ∧
    (shellCount alive s).2.attached ⊆ s.attached ∧
    askCountHandler alive s =
      ((countMessage, decimalBytes (s.pids.filter fun e => alive e.1).length),
        (shellCount alive s).2) := by
  have hnd := (shellReach_inv h).2.2.2
  have hp := sweepDead_pids_self alive s hnd
  obtain ⟨q1, q2, q3, q4⟩ := sweepDead_state alive s.pids s
  refine ⟨?_, ?_, ?_, ?_⟩
  · simp only [shellCount]
    rw [hp]
  · simp only [shellCount]
    exact hp
  · simpa only [shellCount] using q3
  · simp only [askCountHandler, shellCount]
    rw [hp]

/-- C5 amended-theorem witness: with one registered pid 42 probed dead, the
count is 0, the entry is swept and the client detached. -/
theorem askCount_live_entries_witness :
    (shellCount (fun p => p == 41) c5Reg).1 =
      (c5Reg.pids.filter fun e => (fun p => p == 41) e.1).length ∧
    (shellCount (fun p => p == 41) c5Reg).2.pids =
      c5Reg.pids.filter (fun e => (fun p => p == 41) e.1) ∧
    (shellCount (fun p => p == 41) c5Reg).2.attached ⊆ c5Reg.attached ∧
    askCountHandler (fun p => p == 41) c5Reg =
      ((countMessage,
          decimalBytes (c5Reg.pids.filter fun e => (fun p => p == 41) e.1).length),
        (shellCount (fun p => p == 41) c5Reg).2) :=
  askCount_live_entries c5Reg (fun p => p == 41)
    (ShellReach.addPid 0 42 (ShellReach.attach ShellReach.init) (by decide))

/-- C8: when the bind succeeds, a failure writing either the `addr` file or
the `pid` file makes `Listen` remove the session directory, close the
listener and return that error (no partial on-disk registration survives);
on success both the resolved address and the pid have been written. -/
theorem sessionListen_atomic (env : ListenEnv) (d : SessionDisk) (a : String)
    (hbind : env.bindResult = some a) :
    (∀ e, env.addrWriteErr = some e →
        sessionListen env d =
          { result := .failed e, disk := sessionRemove d, listenerOpen := false }) ∧
    (∀ e, env.addrWriteErr = none → env.pidWriteErr = some e →
        sessionListen env d =
          { result := .failed e, disk := sessionRemove d, listenerOpen := false }) ∧
    (env.addrWriteErr = none → env.pidWriteErr = none →
        sessionListen env d =
          { result := .ok a,
            disk := { dirExists := d.dirExists, addrFile := some a,
                      pidFile := some env.pid },
            listenerOpen := true }) := by
  refine ⟨?_, ?_, ?_⟩
  · intro e he
    simp [sessionListen, hbind, he]
  · intro e h1 h2
    simp [sessionListen, hbind, h1, h2, sessionRemove]
  · intro h1 h2
    simp [sessionListen, hbind, h1, h2]

/-- C8 witness: bind succeeds, the pid-file write fails; `Listen` returns the
error with the directory removed and the listener closed. -/
theorem sessionListen_atomic_witness :
    sessionListen
        { bindResult := some "127.0.0.1:4242", addrWriteErr := none,
          pidWriteErr := some "no space", pid := 7 }
        { dirExists := true, addrFile := none, pidFile := none } =
      { result := .failed "no space",
        disk := { dirExists := false, addrFile := none, pidFile := none },
        listenerOpen := false } :=
  (sessionListen_atomic
      { bindResult := some "127.0.0.1:4242", addrWriteErr := none,
        pidWriteErr := some "no space", pid := 7 }
      { dirExists := true, addrFile := none, pidFile := none }
      "127.0.0.1:4242" rfl).2.1 "no space" rfl rfl

/-! ### Writer lemmas -/

theorem nulStuff_append (a b : List Nat) :
    nulStuff (a ++ b) = nulStuff a ++ nulStuff b := by
  simp [nulStuff]

theorem nulStuff_of_no_zero (l : List Nat) (h : ∀ b ∈ l, b ≠ 0) :
    nulStuff l = l := by
  induction l with
  | nil => rfl
  | cons b t ih =>
      have hb : b ≠ 0 := h b (List.mem_cons_self b t)
      simp only [nulStuff, List.map_cons, List.flatten_cons, hb, if_false]
      have := ih fun x hx => h x (List.mem_cons_of_mem b hx)
      simp only [nulStuff] at this
      simp [this]

theorem mwTail_spec (fuel : Nat) :
    ∀ rest : List Nat, rest.length ≤ fuel → mwTail fuel rest = 0 :: nulStuff rest := by
  induction fuel with
  | zero =>
      intro rest h
      have : rest = [] := List.length_eq_zero.mp (Nat.le_zero.mp h)
      subst this
      rfl
  | succ fuel ih =>
      intro rest h
      rw [mwTail]
      cases hf : rest.findIdx? fun b => b == 0 with
      | none =>
          have hz : ∀ b ∈ rest, b ≠ 0 := by
            intro b hb
            have := List.findIdx?_eq_none_iff.mp hf b hb
            simpa using this
          rw [nulStuff_of_no_zero rest hz]
      | some y =>
          obtain ⟨hy, hpy, hlt⟩ := List.findIdx?_eq_some_iff_getElem.mp hf
          have hy0 : rest[y] = 0 := by simpa using hpy
          have hzpre : ∀ b ∈ rest.take y, b ≠ 0 := by
            intro b hb
            rw [List.mem_iff_getElem] at hb
            obtain ⟨i, hi, rfl⟩ := hb
            have hiy : i < y := by
              have := hi
              simp only [List.length_take] at this
              omega
            have := hlt i hiy
            have hgt : (rest.take y)[i] = rest[i] := by
              apply List.getElem_take
            rw [hgt]
            simpa using this
          have hsplit : rest.take (y + 1) = rest.take y ++ [0] := by
            rw [List.take_succ]
            simp [List.getElem?_eq_getElem hy, hy0]
          have hrest : rest = rest.take y ++ [0] ++ rest.drop (y + 1) := by
            rw [← hsplit, List.take_append_drop]
          have hdl : (rest.drop (y + 1)).length ≤ fuel := by
            simp only [List.length_drop]
            omega
          dsimp only
          rw [ih _ hdl, hsplit]
          conv_rhs => rw [hrest]
          rw [nulStuff_append, nulStuff_append, nulStuff_of_no_zero _ hzpre]
          simp [nulStuff]

theorem mwWrite_eq (buf : List Nat) : mwWrite buf = nulStuff buf := by
  rw [mwWrite]
  cases hf : buf.findIdx? fun b => b == 0 with
  | none =>
      have hz : ∀ b ∈ buf, b ≠ 0 := by
        intro b hb
        have := List.findIdx?_eq_none_iff.mp hf b hb
        simpa using this
      rw [nulStuff_of_no_zero buf hz]
  | some x =>
      obtain ⟨hx, hpx, hlt⟩ := List.findIdx?_eq_some_iff_getElem.mp hf
      have hx0 : buf[x] = 0 := by simpa using hpx
      have hzpre : ∀ b ∈ buf.take x, b ≠ 0 := by
        intro b hb
        rw [List.mem_iff_getElem] at hb
        obtain ⟨i, hi, rfl⟩ := hb
        have hix : i < x := by
          have := hi
          simp only [List.length_take] at this
          omega
        have := hlt i hix
        have hgt : (buf.take x)[i] = buf[i] := by
          apply List.getElem_take
        rw [hgt]
        simpa using this
      have hsplit : buf.take (x + 1) = buf.take x ++ [0] := by
        rw [List.take_succ]
        simp [List.getElem?_eq_getElem hx, hx0]
      have hbuf : buf = buf.take x ++ [0] ++ buf.drop (x + 1) := by
        rw [← hsplit, List.take_append_drop]
      have hdl : (buf.drop (x + 1)).length ≤ buf.length := by
        simp only [List.length_drop]
        omega
      dsimp only
      rw [mwTail_spec buf.length _ hdl, hsplit]
      conv_rhs => rw [hbuf]
      rw [nulStuff_append, nulStuff_append, nulStuff_of_no_zero _ hzpre]
      simp [nulStuff]

theorem mwSend_eq (kind : Nat) (buf : List Nat) (h : kind ≠ 0) :
    mwSend kind buf = 0 :: kind % 256 :: enc4 buf.length ++ buf := by
  simp only [mwSend, if_neg h]
  by_cases hc : buf.length > min (oneK - 6) buf.length
  · simp only [if_pos hc]
    simp [List.append_assoc]
  · simp only [if_neg hc]
    rw [List.take_of_length_le (Nat.le_of_not_lt hc)]
    simp

/-! ### Item / token correspondence -/

theorem encodeItem_toks (it : WireItem) (h : OkItem it) :
    encodeItem it = toksBytes (itemToks it) := by
  cases it with
  | data b =>
      rw [encodeItem, mwWrite_eq]
      simp only [itemToks, toksBytes, List.map_map, nulStuff]
      congr 1
      apply List.map_congr_left
      intro c _
      by_cases hc : c = 0 <;> simp [hc, tokBytes]
  | msg k p =>
      obtain ⟨h1, h2, h3⟩ := h
      rw [encodeItem, mwSend_eq _ _ (by omega)]
      simp [toksBytes, itemToks, tokBytes, Nat.mod_eq_of_lt (by omega : k < 256)]

theorem encodeItems_toks (its : List WireItem) (h : ∀ it ∈ its, OkItem it) :
    encodeItems its = toksBytes (itemsToks its) := by
  induction its with
  | nil => rfl
  | cons it rest ih =>
      have h1 := h it (List.mem_cons_self it rest)
      have h2 := ih fun x hx => h x (List.mem_cons_of_mem it hx)
      simp only [encodeItems, itemsToks, List.map_cons, List.flatten_cons] at h2 ⊢
      rw [encodeItem_toks it h1, h2]
      simp [toksBytes, itemsToks]

theorem toksData_append (a b : List Tok) :
    toksData (a ++ b) = toksData a ++ toksData b := by
  induction a with
  | nil => rfl
  | cons t rest ih => cases t <;> simp [toksData, ih]

theorem toksMsgs_append (a b : List Tok) :
    toksMsgs (a ++ b) = toksMsgs a ++ toksMsgs b := by
  induction a with
  | nil => rfl
  | cons t rest ih => cases t <;> simp [toksMsgs, ih]

theorem itemsToks_data (its : List WireItem) :
    toksData (itemsToks its) = itemsData its := by
  induction its with
  | nil => rfl
  | cons it rest ih =>
      cases it with
      | data b =>
          simp only [itemsToks, List.map_cons, List.flatten_cons, toksData_append,
            itemsData, ih, itemToks]
          congr 1
          induction b with
          | nil => rfl
          | cons c t ihb =>
              by_cases hc : c = 0 <;> simp [hc, toksData, ihb]
      | msg k p =>
          have ih2 : toksData (List.map itemToks rest).flatten = itemsData rest := ih
          simp only [itemsToks, List.map_cons, List.flatten_cons, toksData_append,
            itemsData, itemToks]
          simp [toksData, ih2]

theorem itemsToks_msgs (its : List WireItem) :
    toksMsgs (itemsToks its) = itemsMsgs its := by
  induction its with
  | nil => rfl
  | cons it rest ih =>
      cases it with
      | data b =>
          simp only [itemsToks, List.map_cons, List.flatten_cons, toksMsgs_append,
            itemsMsgs, ih, itemToks]
          have ih2 : toksMsgs (List.map itemToks rest).flatten = itemsMsgs rest := ih
          have hb2 : toksMsgs (b.map fun c => if c = 0 then Tok.nul else Tok.lit c) = [] := by
            induction b with
            | nil => rfl
            | cons c t ihb =>
                by_cases hc : c = 0 <;> simp [hc, toksMsgs, ihb]
          simp [hb2, ih2]
      | msg k p =>
          have ih2 : toksMsgs (List.map itemToks rest).flatten = itemsMsgs rest := ih
          simp only [itemsToks, List.map_cons, List.flatten_cons, toksMsgs_append,
            itemsMsgs, itemToks]
          simp [toksMsgs, ih2]

theorem itemsToks_ok (its : List WireItem) (h : ∀ it ∈ its, OkItem it) :
    ∀ t ∈ itemsToks its, OkTok t := by
  induction its with
  | nil => intro t ht; simp [itemsToks] at ht
  | cons it rest ih =>
      intro t ht
      simp only [itemsToks, List.map_cons, List.flatten_cons, List.mem_append] at ht
      rcases ht with ht | ht
      · cases it with
        | data b =>
            simp only [itemToks, List.mem_map] at ht
            obtain ⟨c, _, rfl⟩ := ht
            by_cases hc : c = 0 <;> simp [hc, OkTok]
        | msg k p =>
            simp only [itemToks, List.mem_singleton] at ht
            subst ht
            exact h (.msg k p) (List.mem_cons_self _ _)
      · exact ih (fun x hx => h x (List.mem_cons_of_mem it hx)) t ht

/-! ### Length-header decoding -/

theorem lor_eq_add_pow (i a b : Nat) (hb : b < 2 ^ i) :
    (2 ^ i * a) ||| b = 2 ^ i * a + b :=
  (Nat.mul_add_lt_is_or hb a).symm

theorem dec4_enc4 (n : Nat) (h : n < 2 ^ 32) :
    ((((n >>> 24) % 256) <<< 24) ||| (((n >>> 16) % 256) <<< 16) |||
      (((n >>> 8) % 256) <<< 8) ||| (n % 256)) = n := by
  have e24 : n >>> 24 = n / 2 ^ 24 := Nat.shiftRight_eq_div_pow n 24
  have e16 : n >>> 16 = n / 2 ^ 16 := Nat.shiftRight_eq_div_pow n 16
  have e8 : n >>> 8 = n / 2 ^ 8 := Nat.shiftRight_eq_div_pow n 8
  rw [e24, e16, e8, Nat.shiftLeft_eq, Nat.shiftLeft_eq, Nat.shiftLeft_eq]
  rw [Nat.mul_comm (n / 2 ^ 24 % 256), Nat.mul_comm (n / 2 ^ 16 % 256),
    Nat.mul_comm (n / 2 ^ 8 % 256)]
  rw [lor_eq_add_pow 24 _ _ (by
    have : n / 2 ^ 16 % 256 < 256 := Nat.mod_lt _ (by norm_num)
    calc 2 ^ 16 * (n / 2 ^ 16 % 256) ≤ 2 ^ 16 * 255 := by omega
    _ < 2 ^ 24 := by norm_num)]
  rw [show 2 ^ 24 * (n / 2 ^ 24 % 256) + 2 ^ 16 * (n / 2 ^ 16 % 256)
      = 2 ^ 16 * (2 ^ 8 * (n / 2 ^ 24 % 256) + n / 2 ^ 16 % 256) by ring]
  rw [lor_eq_add_pow 16 _ _ (by
    have : n / 2 ^ 8 % 256 < 256 := Nat.mod_lt _ (by norm_num)
    calc 2 ^ 8 * (n / 2 ^ 8 % 256) ≤ 2 ^ 8 * 255 := by omega
    _ < 2 ^ 16 := by norm_num)]
  rw [show 2 ^ 16 * (2 ^ 8 * (n / 2 ^ 24 % 256) + n / 2 ^ 16 % 256) + 2 ^ 8 * (n / 2 ^ 8 % 256)
      = 2 ^ 8 * (2 ^ 16 * (n / 2 ^ 24 % 256) + 2 ^ 8 * (n / 2 ^ 16 % 256) + n / 2 ^ 8 % 256) by ring]
  rw [lor_eq_add_pow 8 _ (n % 256)
    (lt_of_lt_of_le (Nat.mod_lt n (by norm_num)) (by norm_num))]
  have h24 : 2 ^ 24 = 16777216 := by norm_num
  have h16 : 2 ^ 16 = 65536 := by norm_num
  have h8 : 2 ^ 8 = 256 := by norm_num
  have h32 : n < 4294967296 := by
    have : (2 : Nat) ^ 32 = 4294967296 := by norm_num
    omega
  rw [h24, h16, h8]
  omega

/-! ### Window and fill lemmas -/

theorem window_length (s : MState) (h : RInv s) : (window s).length = s.mt - s.mh := by
  obtain ⟨h1, h2, h3, h4⟩ := h
  simp only [window, List.length_take, List.length_drop]
  omega

theorem window_take_pending (s : MState) (h : RInv s) :
    window s = (pending s).take (s.mt - s.mh) := by
  rw [pending, List.take_append_of_le_length (by rw [window_length s h])]
  rw [window, List.take_take]
  simp

theorem pending_length (s : MState) (h : RInv s) :
    (pending s).length = (s.mt - s.mh) + s.rem.length := by
  simp [pending, window_length s h]

theorem state_getD (s : MState) (h : RInv s) (i : Nat) (hi : i < s.mt - s.mh) :
    s.msg.getD (s.mh + i) 0 = (pending s).getD i 0 := by
  obtain ⟨h1, h2, h3, h4⟩ := h
  simp only [List.getD_eq_getElem?_getD, pending]
  rw [List.getElem?_append_left (by
    rw [window_length s ⟨h1, h2, h3, h4⟩]
    exact hi)]
  rw [window, List.getElem?_take_of_lt hi, List.getElem?_drop]

theorem blit_append (s : MState) (h : RInv s) (src : List Nat)
    (hn : s.mt + src.length ≤ s.msgCap) :
    (blit s.msg s.mt src s.msgCap).length = s.msgCap ∧
    ((blit s.msg s.mt src s.msgCap).drop s.mh).take (s.mt + src.length - s.mh)
      = window s ++ src := by
  obtain ⟨h1, h2, h3, h4⟩ := h
  have hk : min src.length (s.msgCap - s.mt) = src.length := by omega
  have hlt : (s.msg.take s.mt).length = s.mt := by
    simp only [List.length_take]
    omega
  rw [blit]
  simp only [hk]
  rw [List.take_of_length_le (le_refl _)]
  constructor
  · simp only [List.length_append, List.length_take, List.length_drop]
    omega
  · rw [List.append_assoc]
    rw [List.drop_append_of_le_length (by omega)]
    have hdl : ((s.msg.take s.mt).drop s.mh).length = s.mt - s.mh := by
      simp only [List.length_drop, hlt]
    rw [show s.mt + src.length - s.mh = (s.mt - s.mh) + src.length by omega]
    rw [← hdl]
    rw [List.take_append_eq_append_take]
    rw [List.take_of_length_le (by rw [hdl]; omega)]
    rw [hdl]
    rw [show s.mt - s.mh + src.length - (s.mt - s.mh) = src.length by omega]
    rw [List.take_append_of_le_length (le_refl _)]
    rw [List.take_of_length_le (le_refl _)]
    congr 1
    rw [List.drop_take]
    rfl

theorem blit_compact (s : MState) (h : RInv s) :
    (blit s.msg 0 (window s) s.msgCap).length = s.msgCap ∧
    (blit s.msg 0 (window s) s.msgCap).take (s.mt - s.mh) = window s := by
  obtain ⟨h1, h2, h3, h4⟩ := h
  have hwl : (window s).length = s.mt - s.mh := window_length s ⟨h1, h2, h3, h4⟩
  have hk : min (window s).length (s.msgCap - 0) = s.mt - s.mh := by
    rw [hwl]
    omega
  rw [blit]
  simp only [hk, List.take_nil, List.take_zero, List.nil_append, Nat.zero_add]
  rw [List.take_of_length_le (by omega : (window s).length ≤ s.mt - s.mh)]
  constructor
  · simp only [List.length_append, List.length_drop]
    rw [hwl]
    omega
  · rw [List.take_append_of_le_length (by omega : s.mt - s.mh ≤ (window s).length)]
    rw [List.take_of_length_le (by omega : (window s).length ≤ s.mt - s.mh)]

theorem mrRead0_eq_of_zero (s : MState)
    (h : min (s.msgCap - s.mt) s.rem.length = 0) :
    mrRead0 s = { s with err := true } := by
  simp only [mrRead0]
  rw [h]
  simp

theorem mrRead0_eq_of_pos (s : MState)
    (h : ¬ min (s.msgCap - s.mt) s.rem.length = 0) :
    mrRead0 s =
      { s with
        msg := blit s.msg s.mt (s.rem.take (min (s.msgCap - s.mt) s.rem.length)) s.msgCap,
        mt := s.mt + min (s.msgCap - s.mt) s.rem.length,
        rem := s.rem.drop (min (s.msgCap - s.mt) s.rem.length) } := by
  simp only [mrRead0]
  rw [if_neg h]

theorem mrRead0_spec (s : MState) (h : RInv s) (herr : s.err = false) :
    RInv (mrRead0 s) ∧ pending (mrRead0 s) = pending s ∧
    (mrRead0 s).mh = s.mh ∧ (mrRead0 s).msgCap = s.msgCap ∧
    (((mrRead0 s).err = true ∧ min (s.msgCap - s.mt) s.rem.length = 0 ∧
        (mrRead0 s).mt = s.mt ∧ (mrRead0 s).rem = s.rem ∧ (mrRead0 s).msg = s.msg) ∨
      ((mrRead0 s).err = false ∧ 0 < min (s.msgCap - s.mt) s.rem.length ∧
        (mrRead0 s).mt = s.mt + min (s.msgCap - s.mt) s.rem.length ∧
        (mrRead0 s).rem.length + min (s.msgCap - s.mt) s.rem.length = s.rem.length)) := by
  obtain ⟨h1, h2, h3, h4⟩ := h
  by_cases hn : min (s.msgCap - s.mt) s.rem.length = 0
  · rw [mrRead0_eq_of_zero s hn]
    exact ⟨⟨h1, h2, h3, h4⟩, rfl, rfl, rfl, Or.inl ⟨rfl, hn, rfl, rfl, rfl⟩⟩
  · rw [mrRead0_eq_of_pos s hn]
    set n := min (s.msgCap - s.mt) s.rem.length with hndef
    have hpos : 0 < n := Nat.pos_of_ne_zero hn
    have hsl : (s.rem.take n).length = n := by
      simp only [List.length_take]
      omega
    have hble := blit_append s ⟨h1, h2, h3, h4⟩ (s.rem.take n) (by rw [hsl]; omega)
    refine ⟨⟨?_, ?_, h3, hble.1⟩, ?_, rfl, rfl,
      Or.inr ⟨herr, hpos, rfl, by simp only [List.length_drop]; omega⟩⟩
    · show s.mh ≤ s.mt + n
      omega
    · show s.mt + n ≤ s.msgCap
      omega
    · show window _ ++ _ = pending s
      rw [window]
      simp only
      rw [show s.mt + n - s.mh = s.mt + (s.rem.take n).length - s.mh by rw [hsl]]
      rw [hble.2]
      rw [pending, List.append_assoc, List.take_append_drop]

theorem fillLoop_err (count fuel : Nat) (s : MState) (h : s.err = true) :
    fillLoop count fuel s = s := by
  cases fuel with
  | zero => rfl
  | succ fuel => rw [fillLoop]; simp [h]

theorem fillLoop_read_step (count fuel : Nat)
    (ih : ∀ s : MState, RInv s → s.err = false →
      RInv (fillLoop count fuel s) ∧ pending (fillLoop count fuel s) = pending s ∧
      (s.rem.length + 2 ≤ fuel →
        ((fillLoop count fuel s).err = false ∧
            count ≤ (fillLoop count fuel s).mt - (fillLoop count fuel s).mh ∧
            count ≤ (pending s).length) ∨
          ((fillLoop count fuel s).err = true ∧
            (fillLoop count fuel s).mt - (fillLoop count fuel s).mh < count ∧
            (pending s).length < count)))
    (s1 : MState) (h1 : RInv s1) (he1 : s1.err = false)
    (sOrig : MState) (hp : pending s1 = pending sOrig)
    (hrem : s1.rem = sOrig.rem) (hspace : s1.mt < s1.msgCap)
    (hwin : s1.mt - s1.mh < count) :
    RInv (fillLoop count fuel (mrRead0 s1)) ∧
    pending (fillLoop count fuel (mrRead0 s1)) = pending sOrig ∧
    (sOrig.rem.length + 2 ≤ fuel + 1 →
      ((fillLoop count fuel (mrRead0 s1)).err = false ∧
          count ≤ (fillLoop count fuel (mrRead0 s1)).mt -
            (fillLoop count fuel (mrRead0 s1)).mh ∧
          count ≤ (pending sOrig).length) ∨
        ((fillLoop count fuel (mrRead0 s1)).err = true ∧
          (fillLoop count fuel (mrRead0 s1)).mt -
            (fillLoop count fuel (mrRead0 s1)).mh < count ∧
          (pending sOrig).length < count)) := by
  obtain ⟨hri, hpe, hmh, hcap, hcase⟩ := mrRead0_spec s1 h1 he1
  rcases hcase with ⟨he, hn0, hmt, hrem0, hmsg⟩ | ⟨he, hnp, hmt, hlen⟩
  · rw [fillLoop_err count fuel (mrRead0 s1) he]
    have hrem1 : s1.rem.length = 0 := by
      have : s1.msgCap - s1.mt ≠ 0 := by omega
      omega
    refine ⟨hri, hpe.trans hp, ?_⟩
    intro _
    right
    have hlt2 : (mrRead0 s1).mt - (mrRead0 s1).mh < count := by
      rw [hmt, hmh]
      exact hwin
    refine ⟨he, hlt2, ?_⟩
    rw [← hp, pending_length s1 h1, hrem1]
    omega
  · obtain ⟨q1, q2, q3⟩ := ih (mrRead0 s1) hri he
    refine ⟨q1, q2.trans (hpe.trans hp), ?_⟩
    intro hfuel
    have hfu : (mrRead0 s1).rem.length + 2 ≤ fuel := by
      rw [hrem] at hlen hnp
      omega
    rcases q3 hfu with ⟨w1, w2, w3⟩ | ⟨w1, w2, w3⟩
    · left
      refine ⟨w1, w2, ?_⟩
      rw [← hp, ← hpe]
      exact w3
    · right
      refine ⟨w1, w2, ?_⟩
      rw [← hp, ← hpe]
      exact w3

theorem fillLoop_spec (count : Nat) (hc2 : count ≤ 32768) :
    ∀ fuel s, RInv s → s.err = false →
      RInv (fillLoop count fuel s) ∧ pending (fillLoop count fuel s) = pending s ∧
      (s.rem.length + 2 ≤ fuel →
        ((fillLoop count fuel s).err = false ∧
            count ≤ (fillLoop count fuel s).mt - (fillLoop count fuel s).mh ∧
            count ≤ (pending s).length) ∨
          ((fillLoop count fuel s).err = true ∧
            (fillLoop count fuel s).mt - (fillLoop count fuel s).mh < count ∧
            (pending s).length < count)) := by
  intro fuel
  induction fuel with
  | zero =>
      intro s h herr
      refine ⟨h, rfl, ?_⟩
      intro habs
      omega
  | succ fuel ih =>
      intro s h herr
      by_cases hwinlt : s.mt - s.mh < count
      · rw [fillLoop]
        rw [if_pos (show s.err = false ∧ s.mt - s.mh < count from ⟨herr, hwinlt⟩)]
        have hcapge : ¬ count > s.msgCap := by
          obtain ⟨_, _, h3, _⟩ := h
          omega
        rw [if_neg hcapge]
        by_cases hcomp : s.mh + count > s.msgCap
        · rw [if_pos hcomp]
          obtain ⟨h1, h2, h3, h4⟩ := h
          have hbc := blit_compact s ⟨h1, h2, h3, h4⟩
          set s1 : MState :=
            { s with
                msg := blit s.msg 0 (window s) s.msgCap,
                mt := s.mt - s.mh,
                mh := 0 } with hs1def
          have hr1 : RInv s1 := by
            refine ⟨by simp [hs1def], by simp [hs1def]; omega, h3,
              by simpa [hs1def] using hbc.1⟩
          have hp1 : pending s1 = pending s := by
            rw [pending, pending]
            congr 1
            show ((blit s.msg 0 (window s) s.msgCap).drop 0).take (s.mt - s.mh - 0)
              = window s
            simpa using hbc.2
          exact fillLoop_read_step count fuel ih s1 hr1 herr s hp1 rfl
            (by simp [hs1def]; omega) (by simp [hs1def]; omega)
        · rw [if_neg hcomp]
          have hspace : s.mt < s.msgCap := by
            obtain ⟨h1, h2, h3, h4⟩ := h
            omega
          exact fillLoop_read_step count fuel ih s h herr s rfl rfl hspace hwinlt
      · rw [fillLoop]
        rw [if_neg (by
          intro hand
          exact hwinlt hand.2)]
        refine ⟨h, rfl, ?_⟩
        intro _
        left
        refine ⟨herr, by omega, ?_⟩
        rw [pending_length s h]
        omega

theorem fill_spec (count : Nat) (hc2 : count ≤ 32768) (s : MState)
    (h : RInv s) (herr : s.err = false) :
    RInv (fill count s).2 ∧ pending (fill count s).2 = pending s ∧
    ((fill count s).1 = true ↔ count ≤ (pending s).length) ∧
    ((fill count s).1 = true →
      (fill count s).2.err = false ∧ count ≤ (fill count s).2.mt - (fill count s).2.mh) := by
  by_cases hc0 : count = 0
  · subst hc0
    rw [fill]
    simp only [if_pos rfl]
    exact ⟨h, rfl, by simp, fun _ => ⟨herr, Nat.zero_le _⟩⟩
  · by_cases hge : s.mh ≥ s.mt
    · have hs0 : RInv { s with mh := 0, mt := 0 } := by
        obtain ⟨h1, h2, h3, h4⟩ := h
        exact ⟨Nat.le_refl 0, Nat.zero_le _, h3, h4⟩
      have hp0 : pending { s with mh := 0, mt := 0 } = pending s := by
        have hw : s.mt - s.mh = 0 := by omega
        rw [pending, pending, window, window]
        simp [hw]
      have heq : fill count s =
          (decide ((fillLoop count (s.rem.length + 2) { s with mh := 0, mt := 0 }).mt -
              (fillLoop count (s.rem.length + 2) { s with mh := 0, mt := 0 }).mh ≥ count),
            fillLoop count (s.rem.length + 2) { s with mh := 0, mt := 0 }) := by
        rw [fill]
        rw [if_neg hc0, if_pos hge]
        rw [if_neg (by simp [herr] : ¬ ({ s with mh := 0, mt := 0 } : MState).err = true)]
      obtain ⟨q1, q2, q3⟩ :=
        fillLoop_spec count hc2 (s.rem.length + 2) { s with mh := 0, mt := 0 } hs0 herr
      rw [heq]
      simp only
      rw [hp0] at q2
      refine ⟨q1, q2, ?_, ?_⟩
      · rcases q3 (Nat.le_refl _) with ⟨w1, w2, w3⟩ | ⟨w1, w2, w3⟩
        · have w3s : count ≤ (pending s).length := by
            rw [← hp0]
            exact w3
          exact ⟨fun _ => w3s, fun _ => by simpa using w2⟩
        · have w3s : (pending s).length < count := by
            rw [← hp0]
            exact w3
          constructor
          · intro hde
            simp at hde
            omega
          · intro hle
            omega
      · intro hde
        simp only [decide_eq_true_eq] at hde
        rcases q3 (Nat.le_refl _) with ⟨w1, w2, w3⟩ | ⟨w1, w2, w3⟩
        · exact ⟨w1, w2⟩
        · omega
    · have hlt : s.mh < s.mt := Nat.lt_of_not_le hge
      have heq : fill count s =
          (decide ((fillLoop count (s.rem.length + 2) s).mt -
              (fillLoop count (s.rem.length + 2) s).mh ≥ count),
            fillLoop count (s.rem.length + 2) s) := by
        rw [fill]
        rw [if_neg hc0, if_neg hge]
      obtain ⟨q1, q2, q3⟩ := fillLoop_spec count hc2 (s.rem.length + 2) s h herr
      rw [heq]
      simp only
      refine ⟨q1, q2, ?_, ?_⟩
      · rcases q3 (Nat.le_refl _) with ⟨w1, w2, w3⟩ | ⟨w1, w2, w3⟩
        · exact ⟨fun _ => w3, fun _ => by simpa using w2⟩
        · constructor
          · intro hde
            simp at hde
            omega
          · intro hle
            omega
      · intro hde
        simp only [decide_eq_true_eq] at hde
        rcases q3 (Nat.le_refl _) with ⟨w1, w2, w3⟩ | ⟨w1, w2, w3⟩
        · exact ⟨w1, w2⟩
        · omega

/-! ### Token-stream lemmas -/

theorem toksBytes_cons (t : Tok) (ts : List Tok) :
    toksBytes (t :: ts) = tokBytes t ++ toksBytes ts := by
  simp [toksBytes]

theorem tokBytes_ne_nil (t : Tok) : tokBytes t ≠ [] := by
  cases t <;> simp [tokBytes]

theorem toksBytes_eq_nil (ts : List Tok) (h : toksBytes ts = []) : ts = [] := by
  cases ts with
  | nil => rfl
  | cons t rest =>
      rw [toksBytes_cons] at h
      exact absurd (List.append_eq_nil.mp h).1 (tokBytes_ne_nil t)

theorem state_take (s : MState) (h : RInv s) (j : Nat) (hj : j ≤ s.mt - s.mh) :
    (s.msg.drop s.mh).take j = (pending s).take j := by
  have h1 : (s.msg.drop s.mh).take j = (window s).take j := by
    rw [window, List.take_take]
    congr 1
    omega
  rw [h1, window_take_pending s h, List.take_take]
  congr 1
  omega

theorem pending_advance (s : MState) (h : RInv s) (n : Nat) (hn : n ≤ s.mt - s.mh) :
    RInv { s with mh := s.mh + n } ∧
    pending { s with mh := s.mh + n } = (pending s).drop n := by
  obtain ⟨h1, h2, h3, h4⟩ := h
  refine ⟨⟨show s.mh + n ≤ s.mt by omega, h2, h3, h4⟩, ?_⟩
  have hw : window { s with mh := s.mh + n } = (window s).drop n := by
    rw [window, window]
    simp only
    conv_rhs => rw [List.drop_take, List.drop_drop]
    congr 1
    omega
  rw [pending, pending, hw]
  rw [List.drop_append_of_le_length (by rw [window_length s ⟨h1, h2, h3, h4⟩]; omega)]

theorem litRun_le_length (ts : List Tok) : litRun ts ≤ ts.length := by
  induction ts with
  | nil => simp [litRun]
  | cons t rest ih =>
      cases t with
      | lit b => simp [litRun]; omega
      | nul => simp [litRun]
      | fr k p => simp [litRun]

theorem litRun_take_spec (ts : List Tok) (hok : ∀ t ∈ ts, OkTok t) :
    ∀ j, j ≤ litRun ts →
      toksData (ts.take j) = (toksBytes ts).take j ∧
      toksMsgs (ts.take j) = [] ∧
      toksBytes (ts.drop j) = (toksBytes ts).drop j ∧
      (∀ i, i < j → (toksBytes ts).getD i 0 ≠ 0) := by
  induction ts with
  | nil =>
      intro j hj
      have : j = 0 := by simpa [litRun] using hj
      subst this
      exact ⟨rfl, rfl, rfl, by omega⟩
  | cons t rest ih =>
      intro j hj
      cases t with
      | lit b =>
          have hb : b ≠ 0 := hok (.lit b) (List.mem_cons_self _ _)
          cases j with
          | zero => exact ⟨rfl, rfl, rfl, by omega⟩
          | succ j =>
              have hj2 : j ≤ litRun rest := by
                simp only [litRun] at hj
                omega
              obtain ⟨q1, q2, q3, q4⟩ :=
                ih (fun x hx => hok x (List.mem_cons_of_mem _ hx)) j hj2
              refine ⟨?_, ?_, ?_, ?_⟩
              · simp only [List.take_succ_cons, toksData, toksBytes_cons, tokBytes]
                rw [q1]
                simp
              · simp only [List.take_succ_cons, toksMsgs]
                exact q2
              · simp only [List.drop_succ_cons, toksBytes_cons, tokBytes]
                rw [q3]
                simp
              · intro i hi
                rw [toksBytes_cons]
                cases i with
                | zero => simpa [tokBytes] using hb
                | succ i =>
                    simp only [tokBytes, List.cons_append, List.getD_cons_succ,
                      List.nil_append]
                    exact q4 i (by omega)
      | nul =>
          have : j = 0 := by simpa [litRun] using hj
          subst this
          exact ⟨rfl, rfl, rfl, by omega⟩
      | fr k p =>
          have : j = 0 := by simpa [litRun] using hj
          subst this
          exact ⟨rfl, rfl, rfl, by omega⟩

theorem litRun_drop (ts : List Tok) :
    ts.drop (litRun ts) = [] ∨
    (∃ ts', ts.drop (litRun ts) = Tok.nul :: ts') ∨
    (∃ k p ts', ts.drop (litRun ts) = Tok.fr k p :: ts') := by
  induction ts with
  | nil => exact Or.inl rfl
  | cons t rest ih =>
      cases t with
      | lit b => simpa [litRun] using ih
      | nul => exact Or.inr (Or.inl ⟨rest, rfl⟩)
      | fr k p => exact Or.inr (Or.inr ⟨k, p, rest, rfl⟩)


theorem toks_len_le (ts : List Tok) : ts.length ≤ (toksBytes ts).length := by
  induction ts with
  | nil => simp [toksBytes]
  | cons t rest ih =>
      rw [toksBytes_cons, List.length_append, List.length_cons]
      have := tokBytes_ne_nil t
      have h1 : 1 ≤ (tokBytes t).length := by
        cases hb : tokBytes t with
        | nil => exact absurd hb this
        | cons a l => simp
      omega

theorem toksBytes_append (a b : List Tok) :
    toksBytes (a ++ b) = toksBytes a ++ toksBytes b := by
  simp [toksBytes]

theorem getD_take_lt (l : List Nat) (n i : Nat) (h : i < n) :
    (l.take n).getD i 0 = l.getD i 0 := by
  rw [List.getD_eq_getElem?_getD, List.getD_eq_getElem?_getD,
    List.getElem?_take_of_lt h]

theorem findIdx0_none (l : List Nat) (h : ∀ i, i < l.length → l.getD i 0 ≠ 0) :
    (l.findIdx? fun b => b == 0) = none := by
  rw [List.findIdx?_eq_none_iff]
  intro x hx
  rw [List.mem_iff_getElem] at hx
  obtain ⟨i, hi, rfl⟩ := hx
  have := h i hi
  rw [List.getD_eq_getElem?_getD, List.getElem?_eq_getElem hi] at this
  simpa using this

theorem findIdx0_some (l : List Nat) (L : Nat) (hL : L < l.length)
    (h0 : l.getD L 0 = 0) (h : ∀ i, i < L → l.getD i 0 ≠ 0) :
    (l.findIdx? fun b => b == 0) = some L := by
  rw [List.findIdx?_eq_some_iff_getElem]
  have h0' : l[L] = 0 := by
    rw [List.getD_eq_getElem?_getD, List.getElem?_eq_getElem hL] at h0
    simpa using h0
  refine ⟨hL, by simp [h0'], ?_⟩
  intro i hi
  have hil : i < l.length := by omega
  have := h i hi
  rw [List.getD_eq_getElem?_getD, List.getElem?_eq_getElem hil] at this
  simpa using this

theorem getD_drop0 (l : List Nat) (n : Nat) : (l.drop n).getD 0 0 = l.getD n 0 := by
  rw [List.getD_eq_getElem?_getD, List.getD_eq_getElem?_getD, List.getElem?_drop,
    Nat.add_zero]

theorem read_toks : ∀ fuel : Nat,
    (∀ ts : List Tok, ∀ s : MState, ∀ space cnt : Nat,
      (∀ t ∈ ts, OkTok t) → RInv s → s.err = false →
      pending s = toksBytes ts → (toksBytes ts).length + 1 ≤ fuel →
      ∃ ts1 ts2 e sF, ts = ts1 ++ ts2 ∧
        readLoop fuel space cnt s = (toksData ts1, toksMsgs ts1, e, sF) ∧
        RInv sF ∧ pending sF = toksBytes ts2 ∧
        (e = true → ts2 = []) ∧
        (e = false → sF.err = false ∧
          (toksData ts1 ≠ [] ∨ space = 0 ∨ 0 < cnt))) ∧
    (∀ ts : List Tok, ∀ s : MState, ∀ space cnt : Nat,
      (∀ t ∈ ts, OkTok t) → RInv s → s.err = false →
      pending s = toksBytes ts →
      ((∃ ts', ts = Tok.nul :: ts') ∨ ∃ k p ts', ts = Tok.fr k p :: ts') →
      (toksBytes ts).length ≤ fuel →
      ∃ ts1 ts2 e sF, ts = ts1 ++ ts2 ∧
        readNul fuel space cnt s = (toksData ts1, toksMsgs ts1, e, sF) ∧
        RInv sF ∧ pending sF = toksBytes ts2 ∧
        (e = true → ts2 = []) ∧
        (e = false → sF.err = false ∧
          (toksData ts1 ≠ [] ∨ space = 0 ∨ 0 < cnt))) := by
  intro fuel
  induction fuel with
  | zero =>
      constructor
      · intro ts s space cnt _ _ _ _ hfu
        omega
      · intro ts s space cnt _ _ _ _ hhead hfu
        rcases hhead with ⟨ts', rfl⟩ | ⟨k, p, ts', rfl⟩ <;>
          simp [toksBytes_cons, tokBytes] at hfu
  | succ fuel ih =>
      obtain ⟨ihL, ihN⟩ := ih
      constructor
      · -- readLoop step
        intro ts s space cnt hok hri herr hpend hfu
        rw [readLoop]
        by_cases hsp : space = 0
        · rw [if_pos hsp]
          exact ⟨[], ts, false, s, rfl, rfl, hri, hpend, by simp,
            fun _ => ⟨herr, Or.inr (Or.inl hsp)⟩⟩
        · rw [if_neg hsp]
          obtain ⟨f1, f2, f3, f4⟩ := fill_spec 1 (by omega) s hri herr
          rcases hF : fill 1 s with ⟨ok, s1⟩
          rw [hF] at f1 f2 f3 f4
          simp only at f1 f2 f3 f4
          cases ok with
          | false =>
              dsimp only
              have hpnil : pending s = [] := by
                cases hp : pending s with
                | nil => rfl
                | cons a l =>
                    have hge : 1 ≤ (pending s).length := by rw [hp]; simp
                    have := f3.mpr hge
                    simp at this
              have hts : ts = [] := toksBytes_eq_nil ts (by rw [← hpend, hpnil])
              subst hts
              refine ⟨[], [], true, s1, rfl, rfl, f1, ?_, fun _ => rfl, by simp⟩
              rw [f2, hpnil]
              rfl
          | true =>
              dsimp only
              obtain ⟨hs1err, hs1win⟩ := f4 rfl
              have hpend1 : pending s1 = toksBytes ts := by rw [f2, hpend]
              cases ts with
              | nil =>
                  exfalso
                  have hl := pending_length s1 f1
                  rw [hpend1] at hl
                  simp [toksBytes] at hl
                  omega
              | cons t rest =>
                  have hh0 := state_getD s1 f1 0 (by omega)
                  rw [Nat.add_zero, hpend1] at hh0
                  cases t with
                  | lit b =>
                      have hb : b ≠ 0 := hok (.lit b) (List.mem_cons_self _ _)
                      have hnz : s1.msg.getD s1.mh 0 ≠ 0 := by
                        rw [hh0]
                        simpa [toksBytes_cons, tokBytes] using hb
                      rw [if_pos hnz]
                      have hmtcl : (if s1.mt - s1.mh > space then s1.mh + space else s1.mt) - s1.mh
                          = min space (s1.mt - s1.mh) := by
                        split <;> omega
                      rw [hmtcl]
                      have hplen := pending_length s1 f1
                      rw [hpend1] at hplen
                      have hwc1 : 1 ≤ min space (s1.mt - s1.mh) := by
                        have h1 : 1 ≤ space := Nat.one_le_iff_ne_zero.mpr hsp
                        omega
                      have hwcle : min space (s1.mt - s1.mh) ≤ s1.mt - s1.mh :=
                        Nat.min_le_right _ _
                      have hlr1 : 1 ≤ litRun (Tok.lit b :: rest) := by
                        simp [litRun]
                      have hsearch : (s1.msg.drop s1.mh).take (min space (s1.mt - s1.mh))
                          = (toksBytes (Tok.lit b :: rest)).take (min space (s1.mt - s1.mh)) := by
                        rw [state_take s1 f1 _ hwcle, hpend1]
                      by_cases hcl : min space (s1.mt - s1.mh) ≤ litRun (Tok.lit b :: rest)
                      · obtain ⟨q1, q2, q3, q4⟩ := litRun_take_spec (Tok.lit b :: rest) hok _ hcl
                        have hfind : (((s1.msg.drop s1.mh).take (min space (s1.mt - s1.mh))).findIdx?
                            fun x => x == 0) = none := by
                          rw [hsearch]
                          apply findIdx0_none
                          intro i hi
                          rw [List.length_take] at hi
                          have hiw : i < min space (s1.mt - s1.mh) :=
                            lt_of_lt_of_le hi (Nat.min_le_left _ _)
                          rw [getD_take_lt _ _ _ hiw]
                          exact q4 i hiw
                        rw [hfind]
                        dsimp only
                        obtain ⟨ri2, hp2⟩ := pending_advance s1 f1 _ hwcle
                        refine ⟨(Tok.lit b :: rest).take (min space (s1.mt - s1.mh)),
                          (Tok.lit b :: rest).drop (min space (s1.mt - s1.mh)),
                          false, _, (List.take_append_drop _ _).symm, ?_, ri2, ?_, by simp, ?_⟩
                        · rw [state_take s1 f1 _ hwcle, hpend1, q1, q2]
                        · rw [hp2, hpend1, q3]
                        · intro _
                          refine ⟨hs1err, Or.inl ?_⟩
                          rw [q1]
                          apply List.ne_nil_of_length_pos
                          rw [List.length_take]
                          have hlen1 : 1 ≤ (toksBytes (Tok.lit b :: rest)).length := by
                            rw [toksBytes_cons, tokBytes]
                            simp
                          omega
                      · push_neg at hcl
                        obtain ⟨q1, q2, q3, q4⟩ := litRun_take_spec (Tok.lit b :: rest) hok
                          (litRun (Tok.lit b :: rest)) (Nat.le_refl _)
                        have hLlt : litRun (Tok.lit b :: rest) < s1.mt - s1.mh :=
                          lt_of_lt_of_le hcl hwcle
                        have hLlen : litRun (Tok.lit b :: rest) <
                            (toksBytes (Tok.lit b :: rest)).length := by omega
                        have hdrop := litRun_drop (Tok.lit b :: rest)
                        have hdnn : (Tok.lit b :: rest).drop (litRun (Tok.lit b :: rest)) ≠ [] := by
                          intro h0
                          have h1 : toksBytes ((Tok.lit b :: rest).drop
                              (litRun (Tok.lit b :: rest))) = [] := by
                            rw [h0]
                            rfl
                          rw [q3] at h1
                          have hlen0 : (toksBytes (Tok.lit b :: rest)).length -
                              litRun (Tok.lit b :: rest) = 0 := by
                            rw [← List.length_drop, h1]
                            rfl
                          omega
                        have hzero : (toksBytes (Tok.lit b :: rest)).getD
                            (litRun (Tok.lit b :: rest)) 0 = 0 := by
                          rw [← getD_drop0, ← q3]
                          rcases hdrop with hnil | ⟨ts', hts'⟩ | ⟨k, p, ts', hts'⟩
                          · exact absurd hnil hdnn
                          · rw [hts']
                            simp [toksBytes_cons, tokBytes]
                          · rw [hts']
                            simp [toksBytes_cons, tokBytes]
                        have hfind : (((s1.msg.drop s1.mh).take (min space (s1.mt - s1.mh))).findIdx?
                            fun x => x == 0) = some (litRun (Tok.lit b :: rest)) := by
                          rw [hsearch]
                          apply findIdx0_some
                          · rw [List.length_take]
                            omega
                          · rw [getD_take_lt _ _ _ hcl]
                            exact hzero
                          · intro i hi
                            rw [getD_take_lt _ _ _ (lt_trans hi hcl)]
                            exact q4 i hi
                        rw [hfind]
                        dsimp only
                        obtain ⟨ri2, hp2⟩ := pending_advance s1 f1
                          (litRun (Tok.lit b :: rest)) (le_of_lt hLlt)
                        have hp3 : pending { s1 with mh := s1.mh + litRun (Tok.lit b :: rest) }
                            = toksBytes ((Tok.lit b :: rest).drop (litRun (Tok.lit b :: rest))) := by
                          rw [hp2, hpend1, q3]
                        have hokd : ∀ t ∈ (Tok.lit b :: rest).drop (litRun (Tok.lit b :: rest)),
                            OkTok t :=
                          fun t ht => hok t (List.mem_of_mem_drop ht)
                        have hhead2 : (∃ ts', (Tok.lit b :: rest).drop (litRun (Tok.lit b :: rest))
                              = Tok.nul :: ts') ∨
                            ∃ k p ts', (Tok.lit b :: rest).drop (litRun (Tok.lit b :: rest))
                              = Tok.fr k p :: ts' := by
                          rcases hdrop with hnil | h | h
                          · exact absurd hnil hdnn
                          · exact Or.inl h
                          · exact Or.inr h
                        have hfu2 : (toksBytes ((Tok.lit b :: rest).drop
                            (litRun (Tok.lit b :: rest)))).length ≤ fuel := by
                          rw [q3, List.length_drop]
                          omega
                        obtain ⟨u1, u2, e2, sF, hspl2, heq2, hri2, hpend2b, he2, hprog2⟩ :=
                          ihN _ _ (space - litRun (Tok.lit b :: rest))
                            (cnt + litRun (Tok.lit b :: rest)) hokd ri2 hs1err hp3 hhead2 hfu2
                        rw [heq2]
                        dsimp only
                        refine ⟨(Tok.lit b :: rest).take (litRun (Tok.lit b :: rest)) ++ u1,
                          u2, e2, sF, ?_, ?_, hri2, hpend2b, he2, ?_⟩
                        · rw [List.append_assoc, ← hspl2, List.take_append_drop]
                        · rw [toksData_append, toksMsgs_append, q1, q2,
                            state_take s1 f1 _ (le_of_lt hLlt), hpend1]
                          simp
                        · intro he
                          obtain ⟨hserr, _⟩ := hprog2 he
                          refine ⟨hserr, Or.inl ?_⟩
                          rw [toksData_append]
                          intro hnil2
                          have h1 := (List.append_eq_nil.mp hnil2).1
                          rw [q1] at h1
                          have hlen1 := congrArg List.length h1
                          rw [List.length_take] at hlen1
                          simp only [List.length_nil] at hlen1
                          omega
                  | nul =>
                      have hz : ¬ s1.msg.getD s1.mh 0 ≠ 0 := by
                        rw [hh0]
                        simp [toksBytes_cons, tokBytes]
                      rw [if_neg hz]
                      exact ihN (Tok.nul :: rest) s1 space cnt hok f1 hs1err hpend1
                        (Or.inl ⟨rest, rfl⟩) (by omega)
                  | fr k p =>
                      have hz : ¬ s1.msg.getD s1.mh 0 ≠ 0 := by
                        rw [hh0]
                        simp [toksBytes_cons, tokBytes]
                      rw [if_neg hz]
                      exact ihN (Tok.fr k p :: rest) s1 space cnt hok f1 hs1err hpend1
                        (Or.inr ⟨k, p, rest, rfl⟩) (by omega)
      · -- readNul step
        intro ts s space cnt hok hri herr hpend hhead hfu
        rw [readNul]
        obtain ⟨f1, f2, f3, f4⟩ := fill_spec 2 (by omega) s hri herr
        rcases hF : fill 2 s with ⟨ok, s2⟩
        rw [hF] at f1 f2 f3 f4
        simp only at f1 f2 f3 f4
        have hplen2 : 2 ≤ (pending s).length := by
          rw [hpend]
          rcases hhead with ⟨ts', rfl⟩ | ⟨k, p, ts', rfl⟩ <;>
            simp [toksBytes_cons, tokBytes]
        cases ok with
        | false =>
            dsimp only
            exfalso
            have := f3.mpr hplen2
            simp at this
        | true =>
            dsimp only
            obtain ⟨hs2err, hs2win⟩ := f4 rfl
            have hpend2 : pending s2 = toksBytes ts := by rw [f2, hpend]
            have hh1 := state_getD s2 f1 1 (by omega)
            rw [hpend2] at hh1
            rcases hhead with ⟨ts', rfl⟩ | ⟨k, p, ts', rfl⟩
            · -- stuffed NUL
              have hb1 : s2.msg.getD (s2.mh + 1) 0 = 0 := by
                rw [hh1]
                simp [toksBytes_cons, tokBytes]
              rw [if_pos hb1]
              obtain ⟨ri2, hp2⟩ := pending_advance s2 f1 2 (by omega)
              have hp3 : pending { s2 with mh := s2.mh + 2 } = toksBytes ts' := by
                rw [hp2, hpend2]
                simp [toksBytes_cons, tokBytes]
              have hokr : ∀ t ∈ ts', OkTok t := fun t ht => hok t (List.mem_cons_of_mem _ ht)
              have hfu2 : (toksBytes ts').length + 1 ≤ fuel := by
                have hlen : (toksBytes (Tok.nul :: ts')).length = (toksBytes ts').length + 2 := by
                  rw [toksBytes_cons, tokBytes]
                  simp
                omega
              obtain ⟨u1, u2, e2, sF, hspl2, heq2, hri2, hpend2b, he2, hprog2⟩ :=
                ihL ts' { s2 with mh := s2.mh + 2 } (space - 1) (cnt + 1) hokr ri2 hs2err hp3 hfu2
              rw [heq2]
              dsimp only
              refine ⟨Tok.nul :: u1, u2, e2, sF, by rw [hspl2]; rfl, ?_, hri2, hpend2b, he2, ?_⟩
              · simp [toksData, toksMsgs]
              · intro he
                obtain ⟨hserr, _⟩ := hprog2 he
                exact ⟨hserr, Or.inl (by simp [toksData])⟩
            · -- frame start
              obtain ⟨hk1, hk2, hk3⟩ : 1 ≤ k ∧ k ≤ 255 ∧ p.length ≤ 32768 :=
                hok (.fr k p) (List.mem_cons_self _ _)
              have hokr : ∀ t ∈ ts', OkTok t := fun t ht => hok t (List.mem_cons_of_mem _ ht)
              have hb1 : s2.msg.getD (s2.mh + 1) 0 = k := by
                rw [hh1]
                simp [toksBytes_cons, tokBytes]
              rw [if_neg (by rw [hb1]; omega)]
              by_cases hcnt : 0 < cnt
              · rw [if_pos hcnt]
                exact ⟨[], Tok.fr k p :: ts', false, s2, rfl, rfl, f1, hpend2, by simp,
                  fun _ => ⟨hs2err, Or.inr (Or.inr hcnt)⟩⟩
              · rw [if_neg hcnt]
                obtain ⟨g1, g2, g3, g4⟩ := fill_spec 6 (by omega) s2 f1 hs2err
                rcases hG : fill 6 s2 with ⟨ok6, s6⟩
                rw [hG] at g1 g2 g3 g4
                simp only at g1 g2 g3 g4
                have hplen6 : 6 ≤ (pending s2).length := by
                  rw [hpend2, toksBytes_cons, tokBytes, enc4]
                  simp only [List.length_append, List.length_cons]
                  omega
                cases ok6 with
                | false =>
                    dsimp only
                    exfalso
                    have := g3.mpr hplen6
                    simp at this
                | true =>
                    dsimp only
                    obtain ⟨hs6err, hs6win⟩ := g4 rfl
                    have hpend6 : pending s6 = toksBytes (Tok.fr k p :: ts') := by
                      rw [g2, hpend2]
                    have hbytes : toksBytes (Tok.fr k p :: ts')
                        = 0 :: k :: (p.length >>> 24) % 256 :: (p.length >>> 16) % 256 ::
                          (p.length >>> 8) % 256 :: p.length % 256 :: (p ++ toksBytes ts') := by
                      rw [toksBytes_cons, tokBytes, enc4]
                      simp
                    have hg1 := state_getD s6 g1 1 (by omega)
                    have hg2 := state_getD s6 g1 2 (by omega)
                    have hg3 := state_getD s6 g1 3 (by omega)
                    have hg4 := state_getD s6 g1 4 (by omega)
                    have hg5 := state_getD s6 g1 5 (by omega)
                    rw [hpend6, hbytes] at hg1 hg2 hg3 hg4 hg5
                    have hv1 : s6.msg.getD (s6.mh + 1) 0 = k := by rw [hg1]; rfl
                    have hv2 : s6.msg.getD (s6.mh + 2) 0 = (p.length >>> 24) % 256 := by rw [hg2]; rfl
                    have hv3 : s6.msg.getD (s6.mh + 3) 0 = (p.length >>> 16) % 256 := by rw [hg3]; rfl
                    have hv4 : s6.msg.getD (s6.mh + 4) 0 = (p.length >>> 8) % 256 := by rw [hg4]; rfl
                    have hv5 : s6.msg.getD (s6.mh + 5) 0 = p.length % 256 := by rw [hg5]; rfl
                    rw [hv1, hv2, hv3, hv4, hv5]
                    have hlt32 : p.length < 2 ^ 32 := by
                      have h32 : (2 : Nat) ^ 32 = 4294967296 := by norm_num
                      omega
                    rw [dec4_enc4 p.length hlt32]
                    obtain ⟨ri7, hp7⟩ := pending_advance s6 g1 6 (by omega)
                    have hp7b : pending { s6 with mh := s6.mh + 6 } = p ++ toksBytes ts' := by
                      rw [hp7, hpend6, hbytes]
                      rfl
                    obtain ⟨w1, w2, w3, w4⟩ :=
                      fill_spec p.length hk3 { s6 with mh := s6.mh + 6 } ri7 hs6err
                    rcases hW : fill p.length { s6 with mh := s6.mh + 6 } with ⟨okp, s8⟩
                    rw [hW] at w1 w2 w3 w4
                    simp only at w1 w2 w3 w4
                    have hplenp : p.length ≤ (pending { s6 with mh := s6.mh + 6 }).length := by
                      rw [hp7b]
                      simp
                    cases okp with
                    | false =>
                        dsimp only
                        exfalso
                        have := w3.mpr hplenp
                        simp at this
                    | true =>
                        dsimp only
                        obtain ⟨hs8err, hs8win⟩ := w4 rfl
                        have hpend8 : pending s8 = p ++ toksBytes ts' := by
                          rw [w2, hp7b]
                        have hpay : (s8.msg.drop s8.mh).take p.length = p := by
                          rw [state_take s8 w1 _ hs8win, hpend8]
                          exact List.take_left _ _
                        obtain ⟨ri9, hp9⟩ := pending_advance s8 w1 p.length hs8win
                        have hp9b : pending { s8 with mh := s8.mh + p.length }
                            = toksBytes ts' := by
                          rw [hp9, hpend8, List.drop_left]
                        have hfu2 : (toksBytes ts').length + 1 ≤ fuel := by
                          have hlen : (toksBytes (Tok.fr k p :: ts')).length
                              = 6 + p.length + (toksBytes ts').length := by
                            rw [hbytes]
                            simp only [List.length_append, List.length_cons]
                            omega
                          omega
                        obtain ⟨u1, u2, e2, sF, hspl2, heq2, hri2, hpend2b, he2, hprog2⟩ :=
                          ihL ts' { s8 with mh := s8.mh + p.length } space cnt
                            hokr ri9 hs8err hp9b hfu2
                        rw [heq2, hpay]
                        dsimp only
                        refine ⟨Tok.fr k p :: u1, u2, e2, sF, by rw [hspl2]; rfl, ?_,
                          hri2, hpend2b, he2, ?_⟩
                        · simp [toksData, toksMsgs]
                        · intro he
                          obtain ⟨hserr, hpr⟩ := hprog2 he
                          refine ⟨hserr, ?_⟩
                          rcases hpr with h | h | h
                          · exact Or.inl (by simpa [toksData] using h)
                          · exact Or.inr (Or.inl h)
                          · exact Or.inr (Or.inr h)

theorem mrRead_toks (ts : List Tok) (s : MState) (space : Nat)
    (hok : ∀ t ∈ ts, OkTok t) (hri : RInv s) (herr : s.err = false)
    (hpend : pending s = toksBytes ts) :
    ∃ ts1 ts2 e sF, ts = ts1 ++ ts2 ∧
      mrRead space s = (toksData ts1, toksMsgs ts1, e, sF) ∧
      RInv sF ∧ pending sF = toksBytes ts2 ∧
      (e = true → ts2 = []) ∧
      (e = false → sF.err = false ∧ (toksData ts1 ≠ [] ∨ space = 0)) := by
  have hlen : (toksBytes ts).length + 1 ≤ (s.mt - s.mh) + s.rem.length + 1 := by
    have hp := pending_length s hri
    rw [hpend] at hp
    omega
  obtain ⟨ts1, ts2, e, sF, h1, h2, h3, h4, h5, h6⟩ :=
    (read_toks ((s.mt - s.mh) + s.rem.length + 1)).1 ts s space 0 hok hri herr hpend hlen
  refine ⟨ts1, ts2, e, sF, h1, by rw [mrRead]; exact h2, h3, h4, h5, ?_⟩
  intro he
  obtain ⟨ha, hb⟩ := h6 he
  refine ⟨ha, ?_⟩
  rcases hb with h | h | h
  · exact Or.inl h
  · exact Or.inr h
  · omega

theorem readAll_toks (n : Nat) : ∀ fuel space, 1 ≤ space → n < fuel →
    ∀ ts (s : MState), (∀ t ∈ ts, OkTok t) → RInv s → s.err = false →
    pending s = toksBytes ts → (toksBytes ts).length ≤ n →
    readAll fuel space s = (toksData ts, toksMsgs ts) := by
  induction n with
  | zero =>
      intro fuel space hsp hfu ts s hok hri herr hpend hlen
      have hts : ts = [] :=
        toksBytes_eq_nil ts (List.length_eq_zero.mp (Nat.le_zero.mp hlen))
      subst hts
      cases fuel with
      | zero => omega
      | succ m =>
          rw [readAll]
          obtain ⟨ts1, ts2, e, sF, h1, h2, h3, h4, h5, h6⟩ :=
            mrRead_toks [] s space hok hri herr hpend
          have hts1 : ts1 = [] := (List.append_eq_nil.mp h1.symm).1
          subst hts1
          cases e with
          | true =>
              rw [h2]
              rfl
          | false =>
              exfalso
              obtain ⟨_, hd⟩ := h6 rfl
              rcases hd with h | h
              · exact h rfl
              · omega
  | succ n ihn =>
      intro fuel space hsp hfu ts s hok hri herr hpend hlen
      cases fuel with
      | zero => omega
      | succ m =>
          rw [readAll]
          obtain ⟨ts1, ts2, e, sF, h1, h2, h3, h4, h5, h6⟩ :=
            mrRead_toks ts s space hok hri herr hpend
          cases e with
          | true =>
              have hts2 := h5 rfl
              subst hts2
              rw [List.append_nil] at h1
              subst h1
              rw [h2]
              rfl
          | false =>
              obtain ⟨hserr, hd⟩ := h6 rfl
              have hne : toksData ts1 ≠ [] := by
                rcases hd with h | h
                · exact h
                · omega
              have hts1ne : ts1 ≠ [] := by
                intro h0
                subst h0
                exact hne rfl
              have h1len : 1 ≤ (toksBytes ts1).length := by
                cases hc : ts1 with
                | nil => exact absurd hc hts1ne
                | cons a l =>
                    rw [toksBytes_cons, List.length_append]
                    have hn := tokBytes_ne_nil a
                    cases hb : tokBytes a with
                    | nil => exact absurd hb hn
                    | cons x xs =>
                        simp only [List.length_cons]
                        omega
              have hbl : (toksBytes ts2).length ≤ n := by
                have hsum : toksBytes ts = toksBytes ts1 ++ toksBytes ts2 := by
                  rw [h1, toksBytes_append]
                have hc := congrArg List.length hsum
                rw [List.length_append] at hc
                omega
              have hok2 : ∀ t ∈ ts2, OkTok t := by
                intro t ht
                apply hok
                rw [h1]
                exact List.mem_append_right _ ht
              have hr := ihn m space hsp (by omega) ts2 sF hok2 h3 hserr h4 hbl
              rw [h2]
              dsimp only
              rw [hr]
              rw [h1, toksData_append, toksMsgs_append]
              rfl

/-- C1: corrected round-trip — every interleaving of opaque byte chunks and
framed messages with kinds in 1..255 and payloads of at most 32768 bytes is
reproduced exactly by the reader: the opaque bytes come back through `Read`
in order and the `(kind, payload)` callbacks fire in order. -/
theorem messenger_roundtrip (its : List WireItem) (space : Nat)
    (hok : ∀ it ∈ its, OkItem it) (hsp : 1 ≤ space) :
    mrReadAll space (encodeItems its) = (itemsData its, itemsMsgs its) := by
  rw [mrReadAll]
  have hri : RInv (newMessengerReader (encodeItems its)) :=
    ⟨Nat.le_refl 0, Nat.zero_le 32768, rfl, List.length_replicate 32768 0⟩
  have hpend0 : pending (newMessengerReader (encodeItems its)) = encodeItems its := rfl
  have htoks : encodeItems its = toksBytes (itemsToks its) := encodeItems_toks its hok
  have h := readAll_toks (toksBytes (itemsToks its)).length ((encodeItems its).length + 1)
    space hsp (by rw [htoks]; omega) (itemsToks its) (newMessengerReader (encodeItems its))
    (itemsToks_ok its hok) hri rfl (by rw [hpend0, htoks]) (Nat.le_refl _)
  rw [h, itemsToks_data, itemsToks_msgs]

/-! ### The fill reallocation bug (claim C4) -/

theorem fillGrowSize_lt (count : Nat) : fillGrowSize count < 4096 := by
  rw [fillGrowSize]
  have h := Nat.and_le_right (n := count + 0x1000) (m := 0xfff)
  omega

theorem mrRead0_cap (s : MState) (h : s.mt ≤ s.msgCap) :
    (mrRead0 s).msgCap = s.msgCap ∧ (mrRead0 s).mt ≤ s.msgCap := by
  by_cases hn : min (s.msgCap - s.mt) s.rem.length = 0
  · rw [mrRead0_eq_of_zero s hn]
    exact ⟨rfl, h⟩
  · rw [mrRead0_eq_of_pos s hn]
    refine ⟨rfl, ?_⟩
    simp only
    omega

theorem fillLoop_cap (count : Nat) (hc : 4096 < count) :
    ∀ fuel (s : MState), s.msgCap < count → s.mt ≤ s.msgCap →
      (fillLoop count fuel s).msgCap < count ∧
      (fillLoop count fuel s).mt ≤ (fillLoop count fuel s).msgCap := by
  intro fuel
  induction fuel with
  | zero =>
      intro s h1 h2
      rw [fillLoop]
      exact ⟨h1, h2⟩
  | succ fuel ih =>
      intro s h1 h2
      rw [fillLoop]
      by_cases hgd : s.err = false ∧ s.mt - s.mh < count
      · rw [if_pos hgd]
        rw [if_pos (by omega : count > s.msgCap)]
        have hcap : (mrRead0 { s with
            msg := blit (List.replicate (fillGrowSize count) 0) 0
              (s.msg.take (s.mt - s.mh)) (fillGrowSize count),
            msgCap := fillGrowSize count,
            mt := min (s.mt - s.mh) (fillGrowSize count), mh := 0 }).msgCap
              = fillGrowSize count ∧
            (mrRead0 { s with
            msg := blit (List.replicate (fillGrowSize count) 0) 0
              (s.msg.take (s.mt - s.mh)) (fillGrowSize count),
            msgCap := fillGrowSize count,
            mt := min (s.mt - s.mh) (fillGrowSize count), mh := 0 }).mt
              ≤ fillGrowSize count := by
          apply mrRead0_cap
          simp only
          omega
        obtain ⟨hc1, hc2⟩ := hcap
        have hg := fillGrowSize_lt count
        exact ih _ (by rw [hc1]; omega) (by rw [hc1]; exact hc2)
      · rw [if_neg hgd]
        exact ⟨h1, h2⟩

/-- C4: the reader cannot deliver a payload larger than its 32768-byte buffer:
`fill` never succeeds for such a count because the reallocation size
`(count+0x1000)&0xfff` (meant to round up to 4 KiB) is always below 4096, so
the buffer shrinks instead of growing and `Read` reports an error instead of
the message. -/
theorem fill_large_payload_fails (count : Nat) (s : MState)
    (hcnt : 32768 < count) (hri : RInv s) :
    (fill count s).1 = false ∧ fillGrowSize count < 4096 := by
  obtain ⟨h1, h2, h3, h4⟩ := hri
  have hc4 : 4096 < count := by omega
  refine ⟨?_, fillGrowSize_lt count⟩
  rw [fill]
  rw [if_neg (by omega : ¬ count = 0)]
  by_cases hge : s.mh ≥ s.mt
  · rw [if_pos hge]
    dsimp only
    by_cases herr : s.err = true
    · rw [if_pos herr]
    · rw [if_neg herr]
      dsimp only
      obtain ⟨q1, q2⟩ := fillLoop_cap count hc4 (s.rem.length + 2)
        { s with mh := 0, mt := 0 } (by simp only; omega) (by simp only; omega)
      simp only [decide_eq_false_iff_not]
      omega
  · rw [if_neg hge]
    dsimp only
    obtain ⟨q1, q2⟩ := fillLoop_cap count hc4 (s.rem.length + 2) s (by omega) (by omega)
    simp only [decide_eq_false_iff_not]
    omega

/-- C1: the round-trip fails as claimed — `Send` with kind 256 (a kind > 0) is
not reproduced: `byte(kind)` wraps to 0, the six header bytes are consumed as
three stuffed NULs, so `Read` returns three spurious NUL data bytes and the
callback never fires. -/
theorem messenger_roundtrip_claim_false :
    ¬ (mrReadAll 256 (encodeItems [WireItem.msg 256 []])
      = (itemsData [WireItem.msg 256 []], itemsMsgs [WireItem.msg 256 []])) := by
  decide

/-- Witness for `messenger_roundtrip` at a concrete interleaving of opaque
bytes (containing a NUL) and a framed message. -/
theorem messenger_roundtrip_witness :
    (∀ it ∈ [WireItem.data [97, 0, 98], WireItem.msg 2 [49, 50]], OkItem it) ∧
    (1 : Nat) ≤ 4 ∧
    mrReadAll 4 (encodeItems [WireItem.data [97, 0, 98], WireItem.msg 2 [49, 50]])
      = ([97, 0, 98], [(2, [49, 50])]) :=
  ⟨by
    intro it hit
    simp only [List.mem_cons, List.not_mem_nil, or_false] at hit
    rcases hit with rfl | rfl
    · exact trivial
    · exact (by decide : 1 ≤ 2 ∧ 2 ≤ 255 ∧ ([49, 50] : List Nat).length ≤ 32768),
   by omega,
   (messenger_roundtrip [WireItem.data [97, 0, 98], WireItem.msg 2 [49, 50]] 4
     (by
       intro it hit
       simp only [List.mem_cons, List.not_mem_nil, or_false] at hit
       rcases hit with rfl | rfl
       · exact trivial
       · exact (by decide : 1 ≤ 2 ∧ 2 ≤ 255 ∧ ([49, 50] : List Nat).length ≤ 32768))
     (by omega)).trans (by decide)⟩

/-- Witness for `fill_large_payload_fails`: a fresh reader with 40000 bytes
queued still cannot `fill` a 40000-byte request. -/
theorem fill_large_payload_fails_witness :
    32768 < 40000 ∧ RInv (newMessengerReader (List.replicate 40000 1)) ∧
    (fill 40000 (newMessengerReader (List.replicate 40000 1))).1 = false ∧
    fillGrowSize 40000 < 4096 :=
  ⟨by decide,
   ⟨Nat.le_refl 0, Nat.zero_le 32768, rfl, List.length_replicate 32768 0⟩,
   fill_large_payload_fails 40000 (newMessengerReader (List.replicate 40000 1))
     (by decide)
     ⟨Nat.le_refl 0, Nat.zero_le 32768, rfl, List.length_replicate 32768 0⟩⟩

end Pty
